import Mathlib

/-!
Verification development for the SNC-Meister admission-control core.

This file gives a shallow embedding, in Lean 4, of the parts of the
SNC-Meister source (SNC-Library and the SNC-Meister server) that the
specification claims talk about, and proves or refutes each claim.

Conventions used throughout:

* C++ `double` values are modelled as real numbers, extended where the code
  can produce IEEE special values with the type `FV` below (finite real,
  `+inf`, `-inf`, `NaN`).  Finite arithmetic is exact (rounding and overflow
  of `double` are not modelled); the special values follow the IEEE-754
  propagation rules that the C++ code relies on (`log` of a negative number
  is NaN, `log 0 = -inf`, `0 * inf = NaN`, and so on).
* In the registry model (the `NC` class and the admission-control RPC
  handler) every `double` that the control flow inspects is only ever
  added, divided, and compared, so that part of the code is modelled over
  the rationals, keeping every definition executable by `decide`.
* `std::map` is modelled as an association list ordered by ascending key.
  Freshly allocated ids strictly increase, so appending a new record keeps
  the list ordered, and iteration order over the list coincides with the
  ascending-key iteration order of `std::map`.  The three `name -> id`
  maps of class `NC` are kept in sync with the record maps by the source
  at every step; they are modelled as lookups over the record maps.
* `std::set<FlowId>` (the dependency sets of `DependencyParams`) is
  modelled as a strictly sorted `List Nat`, which is how the C++ iterators
  present it to `checkDependence`.
-/

/-! # IEEE double model (finite / +inf / -inf / NaN) -/

/-- Model of a C++ `double` as an exact real plus the IEEE special values. -/
inductive FV : Type
  | fin : ℝ → FV
  | pinf : FV
  | ninf : FV
  | nan : FV

namespace FV

open scoped Classical in
/-- IEEE addition. -/
noncomputable def add : FV → FV → FV
  | nan, _ => nan
  | _, nan => nan
  | fin a, fin b => fin (a + b)
  | fin _, pinf => pinf
  | fin _, ninf => ninf
  | pinf, fin _ => pinf
  | ninf, fin _ => ninf
  | pinf, pinf => pinf
  | ninf, ninf => ninf
  | pinf, ninf => nan
  | ninf, pinf => nan

/-- IEEE negation. -/
noncomputable def neg : FV → FV
  | nan => nan
  | fin a => fin (-a)
  | pinf => ninf
  | ninf => pinf

/-- IEEE subtraction. -/
noncomputable def sub (a b : FV) : FV := add a (neg b)

open scoped Classical in
/-- IEEE multiplication; `0 * inf = NaN`. -/
noncomputable def mul : FV → FV → FV
  | nan, _ => nan
  | _, nan => nan
  | fin a, fin b => fin (a * b)
  | fin a, pinf => if 0 < a then pinf else if a < 0 then ninf else nan
  | fin a, ninf => if 0 < a then ninf else if a < 0 then pinf else nan
  | pinf, fin b => if 0 < b then pinf else if b < 0 then ninf else nan
  | ninf, fin b => if 0 < b then ninf else if b < 0 then pinf else nan
  | pinf, pinf => pinf
  | pinf, ninf => ninf
  | ninf, pinf => ninf
  | ninf, ninf => pinf

open scoped Classical in
/-- IEEE division (division by the positive zero; `inf / inf = NaN`). -/
noncomputable def div : FV → FV → FV
  | nan, _ => nan
  | _, nan => nan
  | fin a, fin b =>
      if b = 0 then (if 0 < a then pinf else if a < 0 then ninf else nan)
      else fin (a / b)
  | fin _, pinf => fin 0
  | fin _, ninf => fin 0
  | pinf, fin b => if 0 ≤ b then pinf else ninf
  | ninf, fin b => if 0 ≤ b then ninf else pinf
  | pinf, _ => nan
  | ninf, _ => nan

/-- IEEE `exp`. -/
noncomputable def fexp : FV → FV
  | nan => nan
  | fin a => fin (Real.exp a)
  | pinf => pinf
  | ninf => fin 0

open scoped Classical in
/-- IEEE `log`: `log 0 = -inf`, `log` of a negative number is NaN. -/
noncomputable def flog : FV → FV
  | nan => nan
  | fin a => if 0 < a then fin (Real.log a) else if a = 0 then ninf else nan
  | pinf => pinf
  | ninf => nan

open scoped Classical in
/-- IEEE `sqrt`: NaN on negative arguments. -/
noncomputable def fsqrt : FV → FV
  | nan => nan
  | fin a => if 0 ≤ a then fin (Real.sqrt a) else nan
  | pinf => pinf
  | ninf => nan

/-- IEEE `fabs`. -/
noncomputable def fabs : FV → FV
  | nan => nan
  | fin a => fin |a|
  | pinf => pinf
  | ninf => pinf

/-- IEEE `<` comparison (false whenever one operand is NaN). -/
def flt : FV → FV → Prop
  | fin a, fin b => a < b
  | fin _, pinf => True
  | ninf, fin _ => True
  | ninf, pinf => True
  | _, _ => False

open scoped Classical in
/-- Behaviour of `std::max(a, b)`: `(a < b) ? b : a`. -/
noncomputable def stdMax (a b : FV) : FV := if flt a b then b else a

/-- Finiteness test, matching C++ `isfinite`. -/
def isFinite : FV → Prop
  | fin _ => True
  | _ => False

end FV

/-! # MGF library (MGF.cpp)

The fitted state of each MGF variant consists of the fields that
`calcMGF` reads: the per-step request probability `_p` and the
fitted request-size distribution parameters.  `MGFHyperexponentialGetPut`
inherits `calcMGF` from `MGFHyperexponential` and only differs in how the
fields are fitted, so it carries the same calculation fields. -/

/-- State of an MGF object: variant tag plus the fields read by `calcMGF`. -/
inductive MGFState : Type
  | deterministic (meanSize p : ℝ)
  | exponential (lambda p : ℝ)
  | hyperexponential (lambda1 lambda2 prob1 p : ℝ)
  | hyperexpGetPut (lambda1 lambda2 prob1 p : ℝ)
  | trace (sizes : List ℝ) (p : ℝ)

open scoped Classical in
/-- Translation of the `calcMGF` methods of `MGF.cpp`.  The explicit
`numeric_limits<double>::infinity()` returns of the exponential and
hyperexponential variants become `FV.pinf`; all other arithmetic in the
source is on finite doubles and is modelled exactly. -/
noncomputable def calcMGF : MGFState → ℝ → FV
  | .deterministic meanSize p, theta =>
      .fin (p * Real.exp (meanSize * theta) + (1 - p))
  | .exponential lambda p, theta =>
      if theta < lambda then .fin (p * (lambda / (lambda - theta)) + (1 - p))
      else .pinf
  | .hyperexponential lambda1 lambda2 prob1 p, theta =>
      if theta < lambda1 ∧ theta < lambda2 then
        .fin (p * (prob1 * lambda1 / (lambda1 - theta) +
          (1 - prob1) * lambda2 / (lambda2 - theta)) + (1 - p))
      else .pinf
  | .hyperexpGetPut lambda1 lambda2 prob1 p, theta =>
      if theta < lambda1 ∧ theta < lambda2 then
        .fin (p * (prob1 * lambda1 / (lambda1 - theta) +
          (1 - prob1) * lambda2 / (lambda2 - theta)) + (1 - p))
      else .pinf
  | .trace sizes p, theta =>
      if sizes = [] then .fin 1
      else .fin (p * ((sizes.map (fun s => Real.exp (s * theta))).sum /
        (sizes.length : ℝ)) + (1 - p))

/-- Result is `+inf` or a finite value at least `1`. -/
def FVgeOne (v : FV) : Prop := v = .pinf ∨ ∃ x : ℝ, v = .fin x ∧ 1 ≤ x

/-- Helper: a list of reals that are all at least 1 sums to at least its length. -/
theorem length_le_sum_of_one_le (l : List ℝ) (h : ∀ x ∈ l, (1 : ℝ) ≤ x) :
    (l.length : ℝ) ≤ l.sum := by
  induction l with
  | nil => simp
  | cons a t ih =>
      simp only [List.length_cons, List.sum_cons, Nat.cast_succ]
      have ha : (1 : ℝ) ≤ a := h a (by simp)
      have ht : (t.length : ℝ) ≤ t.sum := ih (fun x hx => h x (by simp [hx]))
      linarith

/-- C5 (amended): for every theta > 0 and every well-formed fitted state
(nonnegative deterministic mean, probability weight in `[0,1]` for the
hyperexponential variants, nonnegative sample sizes for the empirical
variant), `calcMGF` is `+inf` or at least `1` when `p = 1`, and equals `1`
when `p = 0` provided theta is below the exponential rate(s); when
`theta >= lambda` the exponential and hyperexponential variants return
`+inf` regardless of `p`. -/
theorem mgf_sanity_amended (theta : ℝ) (htheta : 0 < theta) :
    (∀ m : ℝ, 0 ≤ m → FVgeOne (calcMGF (.deterministic m 1) theta)) ∧
    (∀ m : ℝ, calcMGF (.deterministic m 0) theta = .fin 1) ∧
    (∀ lam : ℝ, FVgeOne (calcMGF (.exponential lam 1) theta)) ∧
    (∀ lam : ℝ, theta < lam → calcMGF (.exponential lam 0) theta = .fin 1) ∧
    (∀ lam : ℝ, lam ≤ theta → ∀ p : ℝ, calcMGF (.exponential lam p) theta = .pinf) ∧
    (∀ l1 l2 p1 : ℝ, 0 ≤ p1 → p1 ≤ 1 →
      FVgeOne (calcMGF (.hyperexponential l1 l2 p1 1) theta)) ∧
    (∀ l1 l2 p1 : ℝ, theta < l1 → theta < l2 →
      calcMGF (.hyperexponential l1 l2 p1 0) theta = .fin 1) ∧
    (∀ l1 l2 p1 : ℝ, 0 ≤ p1 → p1 ≤ 1 →
      FVgeOne (calcMGF (.hyperexpGetPut l1 l2 p1 1) theta)) ∧
    (∀ l1 l2 p1 : ℝ, theta < l1 → theta < l2 →
      calcMGF (.hyperexpGetPut l1 l2 p1 0) theta = .fin 1) ∧
    (∀ sizes : List ℝ, (∀ s ∈ sizes, (0 : ℝ) ≤ s) →
      FVgeOne (calcMGF (.trace sizes 1) theta)) ∧
    (∀ sizes : List ℝ, calcMGF (.trace sizes 0) theta = .fin 1) := by
  have hratio : ∀ lam : ℝ, theta < lam → 1 ≤ lam / (lam - theta) := by
    intro lam hlt
    rw [one_le_div (by linarith)]
    linarith
  refine ⟨?_, ?_, ?_, ?_, ?_, ?_, ?_, ?_, ?_, ?_, ?_⟩
  · intro m hm
    right
    refine ⟨_, rfl, ?_⟩
    have := Real.one_le_exp (mul_nonneg hm htheta.le)
    linarith
  · intro m
    simp [calcMGF]
  · intro lam
    by_cases hlt : theta < lam
    · right
      rw [calcMGF, if_pos hlt]
      refine ⟨_, rfl, ?_⟩
      have := hratio lam hlt
      linarith
    · left
      rw [calcMGF, if_neg hlt]
  · intro lam hlt
    rw [calcMGF, if_pos hlt]
    norm_num
  · intro lam hle p
    rw [calcMGF, if_neg (by linarith)]
  · intro l1 l2 p1 hp0 hp1
    by_cases hlt : theta < l1 ∧ theta < l2
    · right
      rw [calcMGF, if_pos hlt]
      refine ⟨_, rfl, ?_⟩
      have h1 := hratio l1 hlt.1
      have h2 := hratio l2 hlt.2
      have e1 : p1 * l1 / (l1 - theta) = p1 * (l1 / (l1 - theta)) := by ring
      have e2 : (1 - p1) * l2 / (l2 - theta) = (1 - p1) * (l2 / (l2 - theta)) := by ring
      rw [e1, e2]
      nlinarith
    · left
      rw [calcMGF, if_neg hlt]
  · intro l1 l2 p1 h1 h2
    rw [calcMGF, if_pos ⟨h1, h2⟩]
    norm_num
  · intro l1 l2 p1 hp0 hp1
    by_cases hlt : theta < l1 ∧ theta < l2
    · right
      rw [calcMGF, if_pos hlt]
      refine ⟨_, rfl, ?_⟩
      have h1 := hratio l1 hlt.1
      have h2 := hratio l2 hlt.2
      have e1 : p1 * l1 / (l1 - theta) = p1 * (l1 / (l1 - theta)) := by ring
      have e2 : (1 - p1) * l2 / (l2 - theta) = (1 - p1) * (l2 / (l2 - theta)) := by ring
      rw [e1, e2]
      nlinarith
    · left
      rw [calcMGF, if_neg hlt]
  · intro l1 l2 p1 h1 h2
    rw [calcMGF, if_pos ⟨h1, h2⟩]
    norm_num
  · intro sizes hs
    by_cases hnil : sizes = []
    · right
      rw [calcMGF, if_pos hnil]
      exact ⟨1, rfl, le_refl 1⟩
    · right
      rw [calcMGF, if_neg hnil]
      refine ⟨_, rfl, ?_⟩
      have hlen : 0 < (sizes.length : ℝ) := by
        have : sizes.length ≠ 0 := fun h => hnil (List.length_eq_zero.mp h)
        positivity
      have hsum : ((sizes.map (fun s => Real.exp (s * theta))).length : ℝ) ≤
          (sizes.map (fun s => Real.exp (s * theta))).sum := by
        apply length_le_sum_of_one_le
        intro x hx
        rcases List.mem_map.mp hx with ⟨s, hsmem, rfl⟩
        exact Real.one_le_exp (mul_nonneg (hs s hsmem) htheta.le)
      rw [List.length_map] at hsum
      have : 1 ≤ (sizes.map (fun s => Real.exp (s * theta))).sum / (sizes.length : ℝ) := by
        rw [one_le_div hlen]
        exact hsum
      linarith
  · intro sizes
    by_cases hnil : sizes = []
    · rw [calcMGF, if_pos hnil]
    · rw [calcMGF, if_neg hnil]
      norm_num

/-- C5 witness: the amended theorem applied at theta = 1. -/
theorem mgf_sanity_amended_witness :
    calcMGF (.deterministic 3 0) 1 = .fin 1 :=
  (mgf_sanity_amended 1 (by norm_num)).2.1 3

/-- C5 counterexample: the claim says `calc_mgf(theta) = 1` when `p = 0` for
every variant and every theta > 0, but `MGFExponential::calcMGF` with the
default rate `lambda = 1e6` returns `+inf` at `theta = 2e6` even though
`p = 0`. -/
theorem mgf_sanity_counterexample :
    calcMGF (.exponential 1000000 0) 2000000 = .pinf ∧
    (FV.pinf ≠ FV.fin 1) := by
  constructor
  · rw [calcMGF, if_neg (by norm_num)]
  · intro h
    exact FV.noConfusion h

/-! # LatencyBound::calcLatency (NC.hpp / SNCOperators.cpp)

The discrete-time step of the SNC embedding. -/

/-- Discrete SNC time step, `const double stepSize = 0.00001` of
SNCOperators.hpp. -/
noncomputable def stepSize : ℝ := 1 / 100000

/-- Translation of `LatencyBound::calcLatency(double theta)`.  The children
bounds at the probed theta values are the finite doubles
`sigmaA, rhoA, sigmaS, rhoS`; the source evaluates
`(log(eps * (1 - exp(theta * (rhoA + rhoS)))) / theta - (sigmaA + sigmaS)) / rhoS`
and multiplies by `stepSize`, with no validity check of any kind, so the
IEEE special values of `log` propagate through. -/
noncomputable def calcLatency (sigmaA rhoA sigmaS rhoS epsilon theta : ℝ) : FV :=
  FV.mul
    (FV.div
      (FV.sub
        (FV.div
          (FV.flog (.fin (epsilon * (1 - Real.exp (theta * (rhoA + rhoS))))))
          (.fin theta))
        (.fin (sigmaA + sigmaS)))
      (.fin rhoS))
    (.fin stepSize)

/-- C4 (amended): when `rhoA + rhoS < 0` (stability), `epsilon` is in
`(0,1)`, `theta > 0` and additionally `rhoS` is nonzero, the log argument
lies in `(0,1)` and `calcLatency` returns exactly the finite value
`stepSize * (log(eps * (1 - exp(theta*(rhoA+rhoS))))/theta - (sigmaA+sigmaS)) / rhoS`.
There is no `+inf` fallback in the code for the remaining cases: the
formula is evaluated unconditionally and IEEE special values propagate
(see the counterexample, which produces NaN). -/
theorem calcLatency_valid_region (sigmaA rhoA sigmaS rhoS epsilon theta : ℝ)
    (htheta : 0 < theta) (heps0 : 0 < epsilon) (heps1 : epsilon < 1)
    (hstab : rhoA + rhoS < 0) (hrhoS : rhoS ≠ 0) :
    (0 < epsilon * (1 - Real.exp (theta * (rhoA + rhoS))) ∧
      epsilon * (1 - Real.exp (theta * (rhoA + rhoS))) < 1) ∧
    calcLatency sigmaA rhoA sigmaS rhoS epsilon theta =
      .fin (stepSize *
        ((Real.log (epsilon * (1 - Real.exp (theta * (rhoA + rhoS)))) / theta -
          (sigmaA + sigmaS)) / rhoS)) := by
  have hexplt : Real.exp (theta * (rhoA + rhoS)) < 1 :=
    Real.exp_lt_one_iff.mpr (mul_neg_of_pos_of_neg htheta hstab)
  have hexppos : 0 < Real.exp (theta * (rhoA + rhoS)) := Real.exp_pos _
  have harg0 : 0 < epsilon * (1 - Real.exp (theta * (rhoA + rhoS))) := by nlinarith
  have harg1 : epsilon * (1 - Real.exp (theta * (rhoA + rhoS))) < 1 := by nlinarith
  refine ⟨⟨harg0, harg1⟩, ?_⟩
  rw [calcLatency, FV.flog, if_pos harg0, FV.div, if_neg (ne_of_gt htheta)]
  rw [FV.sub, FV.neg, FV.add, FV.div, if_neg hrhoS, FV.mul]
  congr 1
  ring

/-- C4 witness for the amended theorem at a concrete input. -/
theorem calcLatency_valid_region_witness :
    calcLatency 0 1 0 (-2) (1/2) 1 =
      .fin (stepSize *
        ((Real.log ((1/2) * (1 - Real.exp (1 * (1 + -2)))) / 1 - (0 + 0)) / (-2))) :=
  (calcLatency_valid_region 0 1 0 (-2) (1/2) 1 (by norm_num) (by norm_num)
    (by norm_num) (by norm_num) (by norm_num)).2

/-- C4 counterexample: the claim says that outside the valid region
`calcLatency` returns `+inf`, but with `rhoA + rhoS = 1/2 > 0` the log
argument is negative, IEEE `log` returns NaN, and the result is NaN, not
`+inf`. -/
theorem calcLatency_counterexample :
    calcLatency 0 1 0 (-(1/2)) (1/2) 1 = .nan ∧ (FV.nan ≠ FV.pinf) := by
  constructor
  · have hexp : 1 < Real.exp (1 * (1 + -(1/2))) := by
      rw [Real.one_lt_exp_iff]
      norm_num
    have harg : (1/2 : ℝ) * (1 - Real.exp (1 * (1 + -(1/2)))) < 0 := by nlinarith
    rw [calcLatency, FV.flog, if_neg (by linarith), if_neg (by linarith)]
    rw [FV.div, FV.sub, FV.neg, FV.add, FV.div, FV.mul]
  · intro h
    exact FV.noConfusion h

/-! # MMBPArrival::calcSpectralRadius (SNCOperators.cpp)

The per-state MGFs are `MGFState` values; the transition matrix is a list
of rows of finite doubles.  The eigenvalue computation of the generic
branch is performed by the external Eigen library and is taken as a
parameter `eig`; the source builds the matrix (returning `+inf` as soon as
a per-state MGF is non-finite) and then takes the largest absolute
eigenvalue. -/

/-- Entry `T[i][j]` of a matrix stored as a list of rows (the source
indexes `vector<vector<double>>` directly; out-of-range reads never happen
on the paths exercised by the theorems below). -/
def ent (T : List (List ℝ)) (i j : ℕ) : ℝ := (T.getD i []).getD j 0

/-- Hand-solved 2-state closed form of `calcSpectralRadius`, with the exact
association of the C++ expression:
`L1 = (T00*M0 + T11*M1 + sqrt((T00*M0 - T11*M1)^2 + 4*T01*T10*M0*M1)) / 2`,
`L2` the same with `-`, result `std::max(fabs(L1), fabs(L2))`. -/
noncomputable def spectral2 (t00 t01 t10 t11 : ℝ) (MGF0 MGF1 : FV) : FV :=
  let a := FV.mul (.fin t00) MGF0
  let b := FV.mul (.fin t11) MGF1
  let disc := FV.add (FV.mul (FV.sub a b) (FV.sub a b))
    (FV.mul (FV.mul (.fin (4 * t01 * t10)) MGF0) MGF1)
  let L1 := FV.div (FV.add (FV.add a b) (FV.fsqrt disc)) (.fin 2)
  let L2 := FV.div (FV.sub (FV.add a b) (FV.fsqrt disc)) (.fin 2)
  FV.stdMax (FV.fabs L1) (FV.fabs L2)

/-- Matrix `Diag(M(theta)) * T` of the generic branch, built row by row;
`none` as soon as a per-state MGF is non-finite (the source returns
infinity at that point, before consulting Eigen). -/
noncomputable def buildMGFMatrix (theta : ℝ) :
    List (MGFState × List ℝ) → Option (List (List ℝ))
  | [] => some []
  | (m, row) :: rest =>
      match calcMGF m theta with
      | .fin v => (buildMGFMatrix theta rest).map
          (fun rows => (row.map (fun t => v * t)) :: rows)
      | _ => none

/-- Translation of `MMBPArrival::calcSpectralRadius`.  When `_MGFs.size() == 2`
the hand-solved closed form is evaluated directly, with no finiteness
check; otherwise each per-state MGF is checked and `+inf` is returned if
any is non-finite, else the spectral radius of the assembled real matrix
is computed by Eigen (the parameter `eig`). -/
noncomputable def calcSpectralRadius (eig : List (List ℝ) → ℝ)
    (T : List (List ℝ)) (MGFs : List MGFState) (theta : ℝ) : FV :=
  match MGFs with
  | [m0, m1] =>
      spectral2 (ent T 0 0) (ent T 0 1) (ent T 1 0) (ent T 1 1)
        (calcMGF m0 theta) (calcMGF m1 theta)
  | l =>
      match buildMGFMatrix theta (l.zip T) with
      | some m => .fin (eig m)
      | none => .pinf

/-- Helper: a non-finite per-state MGF in the zipped list makes the matrix
construction fail. -/
theorem buildMGFMatrix_none (theta : ℝ) (l : List (MGFState × List ℝ))
    (h : ∃ p ∈ l, ¬ (calcMGF p.1 theta).isFinite) :
    buildMGFMatrix theta l = none := by
  induction l with
  | nil => simp at h
  | cons hd tl ih =>
      rcases h with ⟨p, hp, hnf⟩
      rw [buildMGFMatrix]
      rcases List.mem_cons.mp hp with rfl | hptl
      · cases hM : calcMGF p.1 theta with
        | fin v => rw [hM] at hnf; exact absurd trivial hnf
        | pinf => rfl
        | ninf => rfl
        | nan => rfl
      · cases hM : calcMGF hd.1 theta with
        | fin v => rw [ih ⟨p, hptl, hnf⟩]; rfl
        | pinf => rfl
        | ninf => rfl
        | nan => rfl

/-- Helper: a witness in the first component list lifts to the zipped list
when the second list is at least as long. -/
theorem exists_mem_zip_of_exists_mem {α β : Type} (P : α → Prop) :
    ∀ (l : List α) (t : List β), l.length ≤ t.length →
      (∃ m ∈ l, P m) → ∃ p ∈ l.zip t, P p.1 := by
  intro l
  induction l with
  | nil => intro t _ h; simp at h
  | cons hd tl ih =>
      intro t hlen h
      cases t with
      | nil => simp at hlen
      | cons thd ttl =>
          rcases h with ⟨m, hm, hP⟩
          rcases List.mem_cons.mp hm with rfl | hmtl
          · exact ⟨(m, thd), by simp, hP⟩
          · rcases ih ttl (by simpa using hlen) ⟨m, hmtl, hP⟩ with ⟨p, hp, hPp⟩
            exact ⟨p, List.mem_cons_of_mem _ hp, hPp⟩

/-- C9 (amended): in the generic branch (number of states different from
2), a non-finite per-state MGF makes `calcSpectralRadius` return `+inf`,
whatever the eigenvalue routine computes.  In the 2-state branch the
closed form is evaluated with no finiteness check (see the
counterexample, which yields NaN). -/
theorem calcSpectralRadius_nonfinite_generic (eig : List (List ℝ) → ℝ)
    (T : List (List ℝ)) (MGFs : List MGFState) (theta : ℝ)
    (hlen : MGFs.length = T.length) (h2 : MGFs.length ≠ 2)
    (h : ∃ m ∈ MGFs, ¬ (calcMGF m theta).isFinite) :
    calcSpectralRadius eig T MGFs theta = .pinf := by
  have hz : buildMGFMatrix theta (MGFs.zip T) = none :=
    buildMGFMatrix_none theta _
      (exists_mem_zip_of_exists_mem _ MGFs T (le_of_eq hlen) h)
  match MGFs, h2 with
  | [], _ => (rw [calcSpectralRadius, hz]; simp)
  | [m0], _ => (rw [calcSpectralRadius, hz]; simp)
  | m0 :: m1 :: m2 :: rest, _ => (rw [calcSpectralRadius, hz]; simp)

/-- C9 witness for the amended generic-branch theorem. -/
theorem calcSpectralRadius_nonfinite_generic_witness :
    calcSpectralRadius (fun _ => 0) [[1]] [.exponential 1 0] 2 = .pinf := by
  apply calcSpectralRadius_nonfinite_generic (fun _ => 0) [[1]] [.exponential 1 0] 2
  · rfl
  · simp
  · refine ⟨.exponential 1 0, by simp, ?_⟩
    rw [calcMGF, if_neg (by norm_num)]
    simp [FV.isFinite]

/-- C9 counterexample: with 2 states, `T = [[0, 1], [1/2, 1/2]]` and a
non-finite `M_0` (exponential state MGF evaluated at `theta >= lambda`),
the closed form computes `0 * inf = NaN` and the result is NaN, not
`+inf` as the claim states. -/
theorem calcSpectralRadius_counterexample :
    calcSpectralRadius (fun _ => 0) [[0, 1], [1/2, 1/2]]
      [.exponential 1 (1/2), .exponential 1000000 (1/2)] 2 = .nan ∧
    (FV.nan ≠ FV.pinf) := by
  constructor
  · have h0 : calcMGF (.exponential 1 (1/2)) 2 = .pinf := by
      rw [calcMGF, if_neg (by norm_num)]
    have h1 : calcMGF (.exponential 1000000 (1/2)) 2 =
        .fin (1/2 * (1000000 / (1000000 - 2)) + (1 - 1/2)) := by
      rw [calcMGF, if_pos (by norm_num)]
    rw [calcSpectralRadius, h0, h1]
    have hv : (0 : ℝ) < 1/2 * (1000000 / (1000000 - 2)) + (1 - 1/2) := by norm_num
    have hent : ent [[0, 1], [1/2, 1/2]] 0 0 = 0 := rfl
    have hent01 : ent [[0, 1], [1/2, 1/2]] 0 1 = 1 := rfl
    have hent10 : ent [[0, 1], [1/2, 1/2]] 1 0 = 1/2 := rfl
    rw [spectral2, hent, hent01, hent10]
    rw [show FV.mul (.fin 0) .pinf = .nan by rw [FV.mul]; norm_num]
    rw [show ∀ a b : ℝ, FV.mul (.fin a) (.fin b) = .fin (a * b) from fun a b => rfl]
    rw [show FV.mul (.fin ((4 : ℝ) * 1 * (1/2))) .pinf = .pinf by rw [FV.mul]; norm_num]
    rw [show FV.mul FV.pinf (.fin (1/2 * (1000000 / (1000000 - 2)) + (1 - 1/2))) = .pinf by
      rw [FV.mul]; rw [if_pos hv]]
    rw [show ∀ x : ℝ, FV.sub .nan (.fin x) = .nan from fun x => rfl]
    rw [show FV.mul .nan .nan = .nan from rfl]
    rw [show FV.add .nan .pinf = .nan from rfl]
    rw [show FV.fsqrt .nan = .nan from rfl]
    rw [show ∀ x : ℝ, FV.add .nan (.fin x) = .nan from fun x => rfl]
    rw [show FV.add .nan .nan = .nan from rfl]
    rw [show FV.div .nan (.fin 2) = .nan from rfl]
    rw [show FV.sub .nan .nan = .nan from rfl]
    rw [show FV.div .nan (.fin 2) = .nan from rfl]
    rw [show FV.fabs .nan = .nan from rfl]
    rw [FV.stdMax, if_neg (by simp [FV.flt])]
  · intro h
    exact FV.noConfusion h

/-! # SNC operator algebra (SNCOperators.hpp / SNCOperators.cpp)

Operator nodes form a tree; each composite node carries its own Hoelder
parameters `p, q` (both `1` in the independent case) and evaluates its
children at `p * theta` and `q * theta` as in the C++ `calcBound`
methods.  Leaves are abstract arrival/service bounds: a pair of functions
`theta -> sigma` and `theta -> rho` plus a dependency set (this is the
`SNCArrival` / `SNCService` interface; `MMBPArrival` is such a leaf).
Dependency sets are strictly sorted lists, the iteration order of
`std::set<FlowId>`. -/

/-- Operator node.  `constantService c` stores the bandwidth `c`; the C++
constructor multiplies by `stepSize` (`_c(c * stepSize)`) and `calcBound`
returns `rho = -_c`. -/
inductive SNCNode : Type
  | arrival (sigma rho : ℝ → ℝ) (deps : List ℕ)
  | service (sigma rho : ℝ → ℝ) (deps : List ℕ)
  | constantService (c : ℝ)
  | aggregateArrival (p q : ℝ) (A B : SNCNode)
  | convolutionService (p q : ℝ) (S T : SNCNode)
  | outputArrival (p q : ℝ) (A S : SNCNode)
  | leftoverService (p q : ℝ) (A S : SNCNode)

/-- Sorted union of two dependency sets (`std::set::insert` over a range:
the composite constructors call `addDependencies` on both children). -/
def depUnion : List ℕ → List ℕ → List ℕ
  | [], bs => bs
  | a :: as, [] => a :: as
  | a :: as, b :: bs =>
      if a = b then a :: depUnion as bs
      else if a < b then a :: depUnion as (b :: bs)
      else b :: depUnion (a :: as) bs
termination_by as bs => as.length + bs.length

/-- Dependency set of a node: every composite constructor calls
`addDependencies` on its two children, so the set is the union of the
children's sets; `ConstantService` never adds dependencies. -/
def getDependencies : SNCNode → List ℕ
  | .arrival _ _ d => d
  | .service _ _ d => d
  | .constantService _ => []
  | .aggregateArrival _ _ A B => depUnion (getDependencies A) (getDependencies B)
  | .convolutionService _ _ S T => depUnion (getDependencies S) (getDependencies T)
  | .outputArrival _ _ A S => depUnion (getDependencies A) (getDependencies S)
  | .leftoverService _ _ A S => depUnion (getDependencies A) (getDependencies S)

/-- Translation of `DependencyParams::checkDependence`: simultaneous walk
over the two sorted sets, true as soon as a common element is found. -/
def checkDependence : List ℕ → List ℕ → Bool
  | a :: as, b :: bs =>
      if a = b then true
      else if a < b then checkDependence as (b :: bs)
      else checkDependence (a :: as) bs
  | _, _ => false
termination_by as bs => as.length + bs.length

open scoped Classical in
/-- Translation of the `calcBound` methods of the operator nodes
(SNCOperators.cpp).  Children are evaluated at `getP() * theta` and
`getQ() * theta`; formulas as in the source, including the equal-rho
perturbation `rhoS *= 0.99` of `ConvolutionService`. -/
noncomputable def calcBound : SNCNode → ℝ → ℝ × ℝ
  | .arrival sigma rho _, theta => (sigma theta, rho theta)
  | .service sigma rho _, theta => (sigma theta, rho theta)
  | .constantService c, _ => (0, -(c * stepSize))
  | .aggregateArrival p q A B, theta =>
      ((calcBound A (p * theta)).1 + (calcBound B (q * theta)).1,
       (calcBound A (p * theta)).2 + (calcBound B (q * theta)).2)
  | .convolutionService p q S T, theta =>
      let rhoS := (calcBound S (p * theta)).2
      let rhoT := (calcBound T (q * theta)).2
      let rhoS2 := if rhoS = rhoT then 0.99 * rhoS else rhoS
      ((calcBound S (p * theta)).1 + (calcBound T (q * theta)).1 -
        Real.log (1 - Real.exp (-theta * |rhoS2 - rhoT|)) / theta,
       max rhoS2 rhoT)
  | .outputArrival p q A S, theta =>
      ((calcBound A (p * theta)).1 + (calcBound S (q * theta)).1 -
        Real.log (1 - Real.exp (theta *
          ((calcBound A (p * theta)).2 + (calcBound S (q * theta)).2))) / theta,
       (calcBound A (p * theta)).2)
  | .leftoverService p q A S, theta =>
      ((calcBound A (p * theta)).1 + (calcBound S (q * theta)).1,
       (calcBound A (p * theta)).2 + (calcBound S (q * theta)).2)

/-! Spec-side table of section 4.4 (independent case, `p = q = 1`),
written from the specification's words for the refinement comparison. -/

/-- Spec table: `ConstantService(c)` gives `(0, -c * stepSize)`. -/
noncomputable def specTableConstant (c : ℝ) : ℝ × ℝ := (0, -(c * stepSize))

/-- Spec table: `AggregateArrival` adds sigmas and rhos. -/
noncomputable def specTableAggregate (sA rA sB rB : ℝ) : ℝ × ℝ := (sA + sB, rA + rB)

open scoped Classical in
/-- Spec table: `ConvolutionService` with the equal-rho tie-break
`rhoS <- 0.99 * rhoS` applied before the log term. -/
noncomputable def specTableConvolution (sS rS sT rT theta : ℝ) : ℝ × ℝ :=
  let rS2 := if rS = rT then 0.99 * rS else rS
  (sS + sT - Real.log (1 - Real.exp (-theta * |rS2 - rT|)) / theta, max rS2 rT)

/-- Spec table: `OutputArrival`. -/
noncomputable def specTableOutput (sA rA sS rS theta : ℝ) : ℝ × ℝ :=
  (sA + sS - Real.log (1 - Real.exp (theta * (rA + rS))) / theta, rA)

/-- Spec table: `LeftoverService`. -/
noncomputable def specTableLeftover (sA rA sS rS : ℝ) : ℝ × ℝ :=
  (sA + sS, rA + rS)

/-- C6: with Hoelder parameters `p = q = 1` on the node, every operator's
`calcBound` returns exactly the independent-case table formula in terms
of the children's bounds evaluated at the same theta, including the
0.99-perturbation of `ConvolutionService` when the two service rhos are
equal. -/
theorem calcBound_independent_matches_table (theta : ℝ) (_htheta : 0 < theta) :
    (∀ c : ℝ, calcBound (.constantService c) theta = specTableConstant c) ∧
    (∀ A B : SNCNode, calcBound (.aggregateArrival 1 1 A B) theta =
      specTableAggregate (calcBound A theta).1 (calcBound A theta).2
        (calcBound B theta).1 (calcBound B theta).2) ∧
    (∀ S T : SNCNode, calcBound (.convolutionService 1 1 S T) theta =
      specTableConvolution (calcBound S theta).1 (calcBound S theta).2
        (calcBound T theta).1 (calcBound T theta).2 theta) ∧
    (∀ A S : SNCNode, calcBound (.outputArrival 1 1 A S) theta =
      specTableOutput (calcBound A theta).1 (calcBound A theta).2
        (calcBound S theta).1 (calcBound S theta).2 theta) ∧
    (∀ A S : SNCNode, calcBound (.leftoverService 1 1 A S) theta =
      specTableLeftover (calcBound A theta).1 (calcBound A theta).2
        (calcBound S theta).1 (calcBound S theta).2) := by
  refine ⟨?_, ?_, ?_, ?_, ?_⟩
  · intro c
    rw [calcBound, specTableConstant]
  · intro A B
    rw [calcBound, specTableAggregate, one_mul]
  · intro S T
    rw [calcBound, specTableConvolution, one_mul]
  · intro A S
    rw [calcBound, specTableOutput, one_mul]
  · intro A S
    rw [calcBound, specTableLeftover, one_mul]

/-- C6 witness at a concrete theta. -/
theorem calcBound_independent_matches_table_witness :
    calcBound (.constantService 3) 1 = specTableConstant 3 :=
  (calcBound_independent_matches_table 1 (by norm_num)).1 3

/-- Symmetry of `checkDependence`, for arbitrary lists: the walk advances
on the strictly smaller head on either side. -/
theorem checkDependence_symm : (as bs : List ℕ) →
    checkDependence as bs = checkDependence bs as
  | [], [] => by simp [checkDependence]
  | [], _ :: _ => by simp [checkDependence]
  | _ :: _, [] => by simp [checkDependence]
  | a :: as, b :: bs => by
      rw [checkDependence, checkDependence]
      by_cases hab : a = b
      · rw [if_pos hab, if_pos hab.symm]
      · have hba : ¬ b = a := fun hh => hab hh.symm
        rw [if_neg hab, if_neg hba]
        by_cases h : a < b
        · rw [if_pos h, if_neg (show ¬ b < a by omega)]
          exact checkDependence_symm as (b :: bs)
        · rw [if_neg h, if_pos (show b < a by omega)]
          exact checkDependence_symm (a :: as) bs
termination_by as bs => as.length + bs.length

/-- Membership in the sorted union of dependency sets. -/
theorem mem_depUnion : (as bs : List ℕ) → ∀ x : ℕ,
    (x ∈ depUnion as bs ↔ x ∈ as ∨ x ∈ bs)
  | [], bs => by simp [depUnion]
  | _ :: _, [] => by simp [depUnion]
  | a :: as, b :: bs => by
      intro x
      rw [depUnion]
      by_cases hab : a = b
      · rw [if_pos hab]
        subst hab
        simp only [List.mem_cons, mem_depUnion as bs x]
        tauto
      · rw [if_neg hab]
        by_cases h : a < b
        · rw [if_pos h]
          simp only [List.mem_cons, mem_depUnion as (b :: bs) x, List.mem_cons]
          tauto
        · rw [if_neg h]
          simp only [List.mem_cons, mem_depUnion (a :: as) bs x, List.mem_cons]
          tauto
termination_by as bs => as.length + bs.length

/-- The sorted union of two strictly sorted sets is strictly sorted. -/
theorem sorted_depUnion : (as bs : List ℕ) →
    List.Sorted (· < ·) as → List.Sorted (· < ·) bs →
    List.Sorted (· < ·) (depUnion as bs)
  | [], bs => fun _ hb => by simpa [depUnion] using hb
  | _ :: _, [] => fun ha _ => by simpa [depUnion] using ha
  | a :: as, b :: bs => fun ha hb => by
      rw [depUnion]
      rcases List.sorted_cons.mp ha with ⟨haall, has⟩
      rcases List.sorted_cons.mp hb with ⟨hball, hbs⟩
      by_cases hab : a = b
      · rw [if_pos hab]
        refine List.sorted_cons.mpr ⟨?_, sorted_depUnion as bs has hbs⟩
        intro y hy
        rcases (mem_depUnion as bs y).mp hy with h2 | h2
        · exact haall y h2
        · exact hab ▸ hball y h2
      · rw [if_neg hab]
        by_cases h : a < b
        · rw [if_pos h]
          refine List.sorted_cons.mpr ⟨?_, sorted_depUnion as (b :: bs) has hb⟩
          intro y hy
          rcases (mem_depUnion as (b :: bs) y).mp hy with h2 | h2
          · exact haall y h2
          · rcases List.mem_cons.mp h2 with rfl | h3
            · exact h
            · exact lt_trans h (hball y h3)
        · rw [if_neg h]
          refine List.sorted_cons.mpr ⟨?_, sorted_depUnion (a :: as) bs ha hbs⟩
          intro y hy
          rcases (mem_depUnion (a :: as) bs y).mp hy with h2 | h2
          · rcases List.mem_cons.mp h2 with rfl | h3
            · omega
            · have := haall y h3
              omega
          · exact hball y h2
termination_by as bs => as.length + bs.length

/-- On strictly sorted sets, `checkDependence` decides non-empty
intersection. -/
theorem checkDependence_inter : (as bs : List ℕ) →
    List.Sorted (· < ·) as → List.Sorted (· < ·) bs →
    (checkDependence as bs = true ↔ ∃ x : ℕ, x ∈ as ∧ x ∈ bs)
  | [], bs => fun _ _ => by simp [checkDependence]
  | _ :: _, [] => fun _ _ => by simp [checkDependence]
  | a :: as, b :: bs => fun ha hb => by
      rw [checkDependence]
      rcases List.sorted_cons.mp ha with ⟨haall, has⟩
      rcases List.sorted_cons.mp hb with ⟨hball, hbs⟩
      by_cases hab : a = b
      · rw [if_pos hab]
        exact ⟨fun _ => ⟨a, by simp, by simp [hab]⟩, fun _ => rfl⟩
      · rw [if_neg hab]
        by_cases h : a < b
        · rw [if_pos h]
          rw [checkDependence_inter as (b :: bs) has hb]
          constructor
          · rintro ⟨x, hx1, hx2⟩
            exact ⟨x, List.mem_cons_of_mem _ hx1, hx2⟩
          · rintro ⟨x, hx1, hx2⟩
            rcases List.mem_cons.mp hx1 with rfl | h3
            · rcases List.mem_cons.mp hx2 with rfl | h4
              · omega
              · have := hball x h4
                omega
            · exact ⟨x, h3, hx2⟩
        · rw [if_neg h]
          rw [checkDependence_inter (a :: as) bs ha hbs]
          constructor
          · rintro ⟨x, hx1, hx2⟩
            exact ⟨x, hx1, List.mem_cons_of_mem _ hx2⟩
          · rintro ⟨x, hx1, hx2⟩
            rcases List.mem_cons.mp hx2 with rfl | h4
            · rcases List.mem_cons.mp hx1 with rfl | h3
              · omega
              · have := haall x h3
                omega
            · exact ⟨x, hx1, h4⟩
termination_by as bs => as.length + bs.length

/-- Well-formedness: every leaf dependency set is strictly sorted (the
`std::set` class invariant). -/
def wfDeps : SNCNode → Prop
  | .arrival _ _ d => List.Sorted (· < ·) d
  | .service _ _ d => List.Sorted (· < ·) d
  | .constantService _ => True
  | .aggregateArrival _ _ A B => wfDeps A ∧ wfDeps B
  | .convolutionService _ _ S T => wfDeps S ∧ wfDeps T
  | .outputArrival _ _ A S => wfDeps A ∧ wfDeps S
  | .leftoverService _ _ A S => wfDeps A ∧ wfDeps S

/-- Dependency sets of well-formed nodes are strictly sorted. -/
theorem sorted_getDependencies : (n : SNCNode) → wfDeps n →
    List.Sorted (· < ·) (getDependencies n)
  | .arrival _ _ _, h => h
  | .service _ _ _, h => h
  | .constantService _, _ => by simp [getDependencies]
  | .aggregateArrival _ _ A B, h =>
      sorted_depUnion _ _ (sorted_getDependencies A h.1) (sorted_getDependencies B h.2)
  | .convolutionService _ _ S T, h =>
      sorted_depUnion _ _ (sorted_getDependencies S h.1) (sorted_getDependencies T h.2)
  | .outputArrival _ _ A S, h =>
      sorted_depUnion _ _ (sorted_getDependencies A h.1) (sorted_getDependencies S h.2)
  | .leftoverService _ _ A S, h =>
      sorted_depUnion _ _ (sorted_getDependencies A h.1) (sorted_getDependencies S h.2)

/-- C7: `checkDependence` is symmetric; on well-formed nodes it is true
exactly when the two dependency sets intersect; and the dependency set of
every composite operator node is the union of its children's sets. -/
theorem checkDependence_spec :
    (∀ a b : SNCNode, wfDeps a → wfDeps b →
      checkDependence (getDependencies a) (getDependencies b) =
        checkDependence (getDependencies b) (getDependencies a) ∧
      (checkDependence (getDependencies a) (getDependencies b) = true ↔
        ∃ x : ℕ, x ∈ getDependencies a ∧ x ∈ getDependencies b)) ∧
    (∀ (p q : ℝ) (A B : SNCNode) (x : ℕ),
      (x ∈ getDependencies (.aggregateArrival p q A B) ↔
        x ∈ getDependencies A ∨ x ∈ getDependencies B) ∧
      (x ∈ getDependencies (.convolutionService p q A B) ↔
        x ∈ getDependencies A ∨ x ∈ getDependencies B) ∧
      (x ∈ getDependencies (.outputArrival p q A B) ↔
        x ∈ getDependencies A ∨ x ∈ getDependencies B) ∧
      (x ∈ getDependencies (.leftoverService p q A B) ↔
        x ∈ getDependencies A ∨ x ∈ getDependencies B)) := by
  constructor
  · intro a b ha hb
    exact ⟨checkDependence_symm _ _,
      checkDependence_inter _ _ (sorted_getDependencies a ha) (sorted_getDependencies b hb)⟩
  · intro p q A B x
    refine ⟨?_, ?_, ?_, ?_⟩
    · rw [getDependencies]
      exact mem_depUnion _ _ x
    · rw [getDependencies]
      exact mem_depUnion _ _ x
    · rw [getDependencies]
      exact mem_depUnion _ _ x
    · rw [getDependencies]
      exact mem_depUnion _ _ x

/-- C7 witness on two concrete nodes sharing flow id 3. -/
theorem checkDependence_spec_witness :
    checkDependence (getDependencies (.arrival (fun _ => 0) (fun _ => 0) [1, 3]))
        (getDependencies (.service (fun _ => 0) (fun _ => 0) [2, 3])) =
      checkDependence (getDependencies (.service (fun _ => 0) (fun _ => 0) [2, 3]))
        (getDependencies (.arrival (fun _ => 0) (fun _ => 0) [1, 3])) ∧
    (checkDependence (getDependencies (.arrival (fun _ => 0) (fun _ => 0) [1, 3]))
        (getDependencies (.service (fun _ => 0) (fun _ => 0) [2, 3])) = true ↔
      ∃ x : ℕ, x ∈ getDependencies (.arrival (fun _ => 0) (fun _ => 0) [1, 3]) ∧
        x ∈ getDependencies (.service (fun _ => 0) (fun _ => 0) [2, 3])) :=
  checkDependence_spec.1 (.arrival (fun _ => 0) (fun _ => 0) [1, 3])
    (.service (fun _ => 0) (fun _ => 0) [2, 3])
    (by constructor <;> simp)
    (by constructor <;> simp)

/-! # Network-calculus registry and admission control
(NC.hpp, NC.cpp, SNC.cpp, priorityAlgoBySLO.cpp, SNC-Meister.cpp)

The registry state of class `NC`, extended with the SNC-specific flow
field `epsilon` of `SNCFlow` (SNC.hpp).  The doubles this code inspects
are only added, divided and compared, so they are modelled as exact
rationals; every definition in this section is executable.

`std::map` is an association list ordered by ascending key; fresh ids
strictly increase, so appending keeps the order, and list iteration
coincides with `std::map` iteration.  The three `name -> id` maps are
maintained in sync with the record maps by the source and are modelled as
lookups over the record maps (first match; names are unique whenever the
lookups are consulted).  The `arrivalInfo` payload of a flow and the MMBP
dependency sets are not part of the registry model: no claim about the
registry reads them.  The SNC latency analysis (`calcFlowLatency`) is a
parameter `oracle : State -> FlowId -> Rat` of the operations that invoke
it, mirroring the virtual-method indirection of class `NC`. -/

namespace NCModel

/-- Flow record (`struct Flow` of NC.hpp plus the `epsilon` of `SNCFlow`). -/
structure Flow where
  flowId : ℕ
  name : String
  clientId : ℕ
  queueIds : List ℕ
  priority : ℕ
  latency : ℚ
  epsilon : ℚ
deriving DecidableEq, Repr

/-- Client record (`struct Client` of NC.hpp). -/
structure Client where
  clientId : ℕ
  name : String
  flowIds : List ℕ
  SLO : ℚ
  SLOpercentile : ℚ
  latency : ℚ
deriving DecidableEq, Repr

/-- Queue record (`struct Queue` of NC.hpp); `flows` is the list of
`FlowIndex` pairs `(flowId, index)`. -/
structure Queue where
  queueId : ℕ
  name : String
  flows : List (ℕ × ℕ)
  bandwidth : ℚ
deriving DecidableEq, Repr

/-- Registry state of class `NC`. -/
structure State where
  flows : List (ℕ × Flow)
  clients : List (ℕ × Client)
  queues : List (ℕ × Queue)
  nextFlowId : ℕ
  nextClientId : ℕ
  nextQueueId : ℕ
deriving DecidableEq, Repr

/-- Initial state (`NC::NC()`: next ids start one above the invalid id 0). -/
def emptyState : State := ⟨[], [], [], 1, 1, 1⟩

/-- Lookup in an id-keyed association list (`std::map::find`). -/
def lookup {α : Type} (l : List (ℕ × α)) (k : ℕ) : Option α :=
  (l.find? (fun kv => kv.1 == k)).map Prod.snd

/-- In-place update of the record at a key (mutation through a
`std::map` pointer preserves keys and order). -/
def updateVal {α : Type} (l : List (ℕ × α)) (k : ℕ) (f : α → α) : List (ℕ × α) :=
  l.map (fun kv => if kv.1 = k then (kv.1, f kv.2) else kv)

/-- Erase a key (`std::map::erase`; keys are unique, so dropping every
entry with the key is the same operation). -/
def eraseKey {α : Type} (l : List (ℕ × α)) (k : ℕ) : List (ℕ × α) :=
  l.filter (fun kv => kv.1 ≠ k)

/-- View of the `_flowIds` name map: first record with the name, else the
invalid id 0. -/
def getFlowIdByName (s : State) (n : String) : ℕ :=
  ((s.flows.find? (fun kv => kv.2.name == n)).map Prod.fst).getD 0

/-- View of the `_clientIds` name map. -/
def getClientIdByName (s : State) (n : String) : ℕ :=
  ((s.clients.find? (fun kv => kv.2.name == n)).map Prod.fst).getD 0

/-- View of the `_queueIds` name map. -/
def getQueueIdByName (s : State) (n : String) : ℕ :=
  ((s.queues.find? (fun kv => kv.2.name == n)).map Prod.fst).getD 0

/-- JSON `flowInfo` dictionary: optional members model `isMember`;
`arrivalInfo` is only tested for presence. -/
structure FlowInfo where
  name : Option String
  queues : Option (List String)
  arrivalInfo : Bool
  priority : Option ℕ
deriving DecidableEq, Repr

/-- JSON `clientInfo` dictionary. -/
structure ClientInfo where
  name : Option String
  SLO : Option ℚ
  SLOpercentile : Option ℚ
  flows : Option (List FlowInfo)
  dependencies : Option (List String)
deriving DecidableEq, Repr

/-- JSON `queueInfo` dictionary. -/
structure QueueInfo where
  name : Option String
  bandwidth : Option ℚ
deriving DecidableEq, Repr

/-- Append the `FlowIndex` entries of a new flow to the queues on its
path (`_queues[queueId]->flows.push_back(fi)` per hop, in hop order). -/
def addFlowToQueues (flowId : ℕ) : List (ℕ × Queue) → List ℕ → ℕ → List (ℕ × Queue)
  | queues, [], _ => queues
  | queues, qid :: rest, index =>
      addFlowToQueues flowId
        (updateVal queues qid (fun q => { q with flows := q.flows ++ [(flowId, index)] }))
        rest (index + 1)

/-- Translation of `SNC::initFlow` (which wraps `NC::initFlow`).
`NC::initFlow` allocates the id, registers the record and name, appends
the id to the owning client's `flowIds`, resolves the queue path and
registers a `FlowIndex` at every hop, and defaults `priority` to 1;
`SNC::initFlow` then reads the client back and sets
`epsilon = (1 - SLOpercentile/100) / c->flowIds.size()` — the divisor is
the number of the client's flows registered so far, this one included. -/
def initFlow (s : State) (flowInfo : FlowInfo) (clientId : ℕ) : State :=
  let flowId := s.nextFlowId
  let fname := flowInfo.name.getD ""
  let clients1 := updateVal s.clients clientId
    (fun c => { c with flowIds := c.flowIds ++ [flowId] })
  let qids := (flowInfo.queues.getD []).map (fun qn => getQueueIdByName s qn)
  let queues1 := addFlowToQueues flowId s.queues qids 0
  let cAfter := lookup clients1 clientId
  let eps : ℚ :=
    match cAfter with
    | some c => (1 - c.SLOpercentile / 100) / (c.flowIds.length : ℚ)
    | none => 0
  let f : Flow :=
    { flowId := flowId, name := fname, clientId := clientId, queueIds := qids,
      priority := flowInfo.priority.getD 1, latency := 0, epsilon := eps }
  { s with
      flows := s.flows ++ [(flowId, f)],
      clients := clients1,
      queues := queues1,
      nextFlowId := s.nextFlowId + 1 }

/-- Translation of `NC::initClient`: allocates the id, registers the
record and name, defaults `SLOpercentile` to 99.9, zeroes `latency`. -/
def initClient (s : State) (info : ClientInfo) : State :=
  let clientId := s.nextClientId
  let c : Client :=
    { clientId := clientId, name := info.name.getD "", flowIds := [],
      SLO := info.SLO.getD 0, SLOpercentile := info.SLOpercentile.getD (999/10),
      latency := 0 }
  { s with
      clients := s.clients ++ [(clientId, c)],
      nextClientId := s.nextClientId + 1 }

/-- Translation of `NC::addClient`: `initClient`, then `initFlow` for each
entry of the `flows` member in order. -/
def addClient (s : State) (info : ClientInfo) : State :=
  let clientId := s.nextClientId
  (info.flows.getD []).foldl (fun st fi => initFlow st fi clientId) (initClient s info)

/-- Translation of `NC::initQueue` / `NC::addQueue`. -/
def addQueue (s : State) (info : QueueInfo) : State :=
  let queueId := s.nextQueueId
  let q : Queue :=
    { queueId := queueId, name := info.name.getD "", flows := [],
      bandwidth := info.bandwidth.getD 0 }
  { s with
      queues := s.queues ++ [(queueId, q)],
      nextQueueId := s.nextQueueId + 1 }

/-- Per-flow body of `NC::delClient`: detach the flow from every queue on
its path (erasing the first matching `FlowIndex` per hop) and erase the
flow record and name. -/
def delFlow (s : State) (flowId : ℕ) : State :=
  match lookup s.flows flowId with
  | none => s
  | some f =>
      { s with
          queues :=
            f.queueIds.foldl
              (fun qs qid =>
                updateVal qs qid
                  (fun q => { q with flows := q.flows.eraseP (fun e => e.1 == flowId) }))
              s.queues,
          flows := eraseKey s.flows flowId }

/-- Translation of `NC::delClient`: delete each of the client's flows in
order, then erase the client record and name. -/
def delClient (s : State) (clientId : ℕ) : State :=
  match lookup s.clients clientId with
  | none => s
  | some c =>
      let s1 := c.flowIds.foldl delFlow s
      { s1 with clients := eraseKey s1.clients clientId }

/-- Translation of `NC::setFlowPriority`. -/
def setFlowPriority (s : State) (flowId : ℕ) (priority : ℕ) : State :=
  { s with flows := updateVal s.flows flowId (fun f => { f with priority := priority }) }

/-- Write a flow's computed latency (`f->latency` assignment inside the
analyses invoked by `calcFlowLatency`). -/
def setFlowLatency (s : State) (flowId : ℕ) (v : ℚ) : State :=
  { s with flows := updateVal s.flows flowId (fun f => { f with latency := v }) }

/-- Translation of `NC::calcClientLatency` with the analysis abstracted
as `oracle`: zero the client latency, then for each flow in order compute
its latency from the current registry, store it on the flow, and
accumulate it on the client. -/
def calcClientLatency (oracle : State → ℕ → ℚ) (s : State) (clientId : ℕ) : State :=
  match lookup s.clients clientId with
  | none => s
  | some c =>
      let clients0 := updateVal s.clients clientId (fun c0 => { c0 with latency := 0 })
      let s0 : State := { s with clients := clients0 }
      c.flowIds.foldl
        (fun st fid =>
          let v := oracle st fid
          let st1 := setFlowLatency st fid v
          let clients1 := updateVal st1.clients clientId (fun c0 => { c0 with latency := c0.latency + v })
          { st1 with clients := clients1 })
        s0

/-- Insertion into a list sorted by ascending `SLO` (one of the orders
`std::sort` with comparator `c1->SLO < c2->SLO` may produce; the
priorities assigned below do not depend on the order of SLO ties). -/
def insertBySLO (c : Client) : List Client → List Client
  | [] => [c]
  | d :: ds => if c.SLO < d.SLO then c :: d :: ds else d :: insertBySLO c ds

/-- Sort clients by ascending SLO. -/
def sortBySLO : List Client → List Client
  | [] => []
  | c :: cs => insertBySLO c (sortBySLO cs)

/-- Walk of `configurePrioritiesBySLO`: starting from `priority = 0` and
`currentSLO = 0`, bump the priority whenever the client's SLO strictly
exceeds the running threshold, then assign the priority to every flow of
the client. -/
def configLoop : State → List Client → ℕ → ℚ → State
  | s, [], _, _ => s
  | s, c :: rest, priority, currentSLO =>
      let priority1 := if c.SLO > currentSLO then priority + 1 else priority
      let currentSLO1 := if c.SLO > currentSLO then c.SLO else currentSLO
      let s1 := c.flowIds.foldl (fun st fid => setFlowPriority st fid priority1) s
      configLoop s1 rest priority1 currentSLO1

/-- Translation of `configurePrioritiesBySLO` (priorityAlgoBySLO.cpp):
collect the clients in map order, sort them by SLO, and run the
assignment walk. -/
def configurePrioritiesBySLO (s : State) : State :=
  configLoop s (sortBySLO (s.clients.map Prod.snd)) 0 0

end NCModel

namespace NCModel

/-- Translation of `markAffectedFlows` (SNC-Meister.cpp): depth-first
marking of `(flowId, index)` pairs.  The `set<FlowIndex>` is modelled as
a duplicate-free list (its content is what the claims read; the only
iteration over it feeds a sorted id set below).  An explicit fuel makes
the recursion structurally terminating; the C++ recursion terminates
because every nested call inserts a new pair into the shared set, so any
fuel larger than the number of distinct pairs reproduces the source
behaviour (the theorems below carry that bound as a hypothesis). -/
def markAffectedFlows (s : State) : ℕ → List (ℕ × ℕ) → (ℕ × ℕ) → ℕ → List (ℕ × ℕ)
  | 0, aff, _, _ => aff
  | fuel + 1, aff, fi, priority =>
      match lookup s.flows fi.1 with
      | none => aff
      | some f =>
          if f.priority < priority then aff
          else if fi ∈ aff then aff
          else
            let aff1 := fi :: aff
            (f.queueIds.drop fi.2).foldl
              (fun acc qid =>
                match lookup s.queues qid with
                | none => acc
                | some q =>
                    q.flows.foldl (fun acc2 fj => markAffectedFlows s fuel acc2 fj f.priority) acc)
              aff1

/-- Fuel that strictly exceeds the number of distinct `(flowId, index)`
pairs reachable by the marking (every pair inserted comes from a queue's
incidence list or is one of the `(flowId, 0)` start pairs). -/
def markFuel (s : State) : ℕ :=
  (s.queues.map (fun kv => kv.2.flows.length)).sum + s.flows.length + 1

/-- Status enum of the RPC interface (SNC_Meister_prot.x). -/
inductive SNCStatus : Type
  | success
  | errMissingArgument
  | errInvalidArgument
  | errFlowNameInUse
  | errClientNameInUse
  | errQueueNameInUse
  | errFlowNameNonexistent
  | errClientNameNonexistent
  | errQueueNameNonexistent
  | errQueueHasActiveFlows
deriving DecidableEq, Repr

/-- Translation of `checkFlowInfo`: name present, unused in the registry
and in the batch; queues present and all existing; `arrivalInfo` present.
Returns the status and the updated batch name set. -/
def checkFlowInfo (s : State) (flowNames : List String) (fi : FlowInfo) :
    SNCStatus × List String :=
  match fi.name with
  | none => (.errMissingArgument, flowNames)
  | some n =>
      if getFlowIdByName s n ≠ 0 then (.errFlowNameInUse, flowNames)
      else if n ∈ flowNames then (.errFlowNameInUse, flowNames)
      else
        let flowNames1 := n :: flowNames
        match fi.queues with
        | none => (.errMissingArgument, flowNames1)
        | some qs =>
            if qs.any (fun qn => getQueueIdByName s qn == 0) then
              (.errQueueNameNonexistent, flowNames1)
            else if fi.arrivalInfo then (.success, flowNames1)
            else (.errMissingArgument, flowNames1)

/-- Check of a client's flow list, first error wins. -/
def checkFlowInfos (s : State) : List String → List FlowInfo → SNCStatus × List String
  | flowNames, [] => (.success, flowNames)
  | flowNames, fi :: rest =>
      match checkFlowInfo s flowNames fi with
      | (SNCStatus.success, fn1) => checkFlowInfos s fn1 rest
      | (st, fn1) => (st, fn1)

/-- Translation of `checkClientInfo`: name present and unused; `SLO`
present and positive; `SLOpercentile`, when present, in `(0, 100)`;
`flows` present and each flow valid. -/
def checkClientInfo (s : State) (clientNames flowNames : List String) (ci : ClientInfo) :
    SNCStatus × List String × List String :=
  match ci.name with
  | none => (.errMissingArgument, clientNames, flowNames)
  | some n =>
      if getClientIdByName s n ≠ 0 then (.errClientNameInUse, clientNames, flowNames)
      else if n ∈ clientNames then (.errClientNameInUse, clientNames, flowNames)
      else
        let cn1 := n :: clientNames
        match ci.SLO with
        | none => (.errMissingArgument, cn1, flowNames)
        | some slo =>
            if slo ≤ 0 then (.errInvalidArgument, cn1, flowNames)
            else
              let pctOK : Bool :=
                match ci.SLOpercentile with
                | some p => decide (0 < p ∧ p < 100)
                | none => true
              if pctOK then
                match ci.flows with
                | none => (.errMissingArgument, cn1, flowNames)
                | some fls =>
                    let r := checkFlowInfos s flowNames fls
                    (r.1, cn1, r.2)
              else (.errInvalidArgument, cn1, flowNames)

/-- Translation of `checkClientInfos`: shared name sets across the batch,
first error wins. -/
def checkClientInfos (s : State) : List String → List String → List ClientInfo → SNCStatus
  | _, _, [] => .success
  | cns, fns, ci :: rest =>
      match checkClientInfo s cns fns ci with
      | (SNCStatus.success, cn1, fn1) => checkClientInfos s cn1 fn1 rest
      | (st, _, _) => st

/-- Validation part of `addDependencies`: every referenced client name
must resolve.  (The wiring into the MMBP dependency sets is outside the
registry model; no registry field read by the claims depends on it.) -/
def addDependenciesCheck (s : State) (ci : ClientInfo) : SNCStatus :=
  match ci.dependencies with
  | none => .success
  | some deps =>
      if deps.any (fun dn => getClientIdByName s dn == 0) then .errClientNameNonexistent
      else .success

/-- Dependency loop of the RPC handler, first error wins. -/
def addDependenciesLoop (s : State) : List ClientInfo → SNCStatus
  | [] => .success
  | ci :: rest =>
      match addDependenciesCheck s ci with
      | SNCStatus.success => addDependenciesLoop s rest
      | st => st

/-- Latency sweep over the newly added clients (ascending id order, the
iteration order of `set<ClientId>`): compute each client's latency, fail
on the first SLO violation (`break`), otherwise mark the affected flows
from each of the client's flows at start index 0 and threshold 0. -/
def latencySweep (oracle : State → ℕ → ℚ) :
    State → List ℕ → List (ℕ × ℕ) → State × Bool × List (ℕ × ℕ)
  | s, [], aff => (s, true, aff)
  | s, cid :: rest, aff =>
      let s1 := calcClientLatency oracle s cid
      match lookup s1.clients cid with
      | none => latencySweep oracle s1 rest aff
      | some c =>
          if c.latency > c.SLO then (s1, false, aff)
          else
            let aff1 := c.flowIds.foldl
              (fun a fid => markAffectedFlows s1 (markFuel s1) a (fid, 0) 0) aff
            latencySweep oracle s1 rest aff1

/-- Sorted duplicate-free insertion (ascending), modelling
`std::set<ClientId>` and its ascending iteration order. -/
def insertSortedNat (n : ℕ) : List ℕ → List ℕ
  | [] => [n]
  | m :: ms =>
      if n = m then m :: ms
      else if n < m then n :: m :: ms
      else m :: insertSortedNat n ms

/-- Client ids of the affected flows (`affectedClientIds` in the RPC
handler), as the ascending iteration order of the `set<ClientId>`. -/
def affectedClientIds (s : State) (aff : List (ℕ × ℕ)) : List ℕ :=
  (aff.map (fun fi => ((lookup s.flows fi.1).map Flow.clientId).getD 0)).foldl
    (fun acc n => insertSortedNat n acc) []

/-- Recheck of affected incumbent clients (ascending id order), skipping
clients of the new batch, failing on the first SLO violation. -/
def recheckLoop (oracle : State → ℕ → ℚ) (newIds : List ℕ) :
    State → List ℕ → State × Bool
  | s, [] => (s, true)
  | s, cid :: rest =>
      if cid ∈ newIds then recheckLoop oracle newIds s rest
      else
        let s1 := calcClientLatency oracle s cid
        match lookup s1.clients cid with
        | none => recheckLoop oracle newIds s1 rest
        | some c =>
            if c.latency > c.SLO then (s1, false)
            else recheckLoop oracle newIds s1 rest

/-- Result of the AddClients RPC. -/
structure AddClientsRes where
  status : SNCStatus
  admitted : Bool
deriving DecidableEq, Repr

/-- Translation of `snc_meister_add_clients_svc` (SNC-Meister.cpp) on an
already-parsed batch: validate; add all clients (collecting the fresh
ids); wire dependencies (first missing reference aborts); configure
priorities by SLO; latency-check the new clients, marking affected
flows; recheck affected incumbents; on a negative outcome delete every
newly added client.  The enforcer RPCs and the `clientInfoStore` cache
are outside the registry. -/
def snc_meister_add_clients_svc (oracle : State → ℕ → ℚ) (s : State)
    (clientInfos : List ClientInfo) : State × AddClientsRes :=
  let st0 := checkClientInfos s [] [] clientInfos
  if st0 ≠ .success then (s, ⟨st0, false⟩)
  else
    let s1 := clientInfos.foldl addClient s
    let newIds := (List.range clientInfos.length).map (fun i => s.nextClientId + i)
    let st1 := addDependenciesLoop s1 clientInfos
    if st1 ≠ .success then (newIds.foldl delClient s1, ⟨st1, false⟩)
    else
      let s2 := configurePrioritiesBySLO s1
      let r := latencySweep oracle s2 newIds []
      if r.2.1 then
        let acids := affectedClientIds r.1 r.2.2
        let r2 := recheckLoop oracle newIds r.1 acids
        if r2.2 then (r2.1, ⟨.success, true⟩)
        else (newIds.foldl delClient r2.1, ⟨.success, false⟩)
      else (newIds.foldl delClient r.1, ⟨.success, false⟩)

end NCModel

namespace NCModel

/-- Lookup distributes over concatenation, first list first. -/
theorem lookup_append {α : Type} (l1 l2 : List (ℕ × α)) (k : ℕ) :
    lookup (l1 ++ l2) k = ((lookup l1 k).or (lookup l2 k)) := by
  rw [lookup, List.find?_append]
  cases h : l1.find? (fun kv => kv.1 == k) with
  | none => simp [lookup, h]
  | some kv => simp [lookup, h]

/-- A list whose keys are all below a bound has no entry at the bound. -/
theorem lookup_eq_none_of_bound {α : Type} (l : List (ℕ × α)) (n : ℕ)
    (h : ∀ kv ∈ l, kv.1 < n) : lookup l n = none := by
  rw [lookup, List.find?_eq_none.mpr]
  · rfl
  · intro kv hkv
    simp only [beq_iff_eq]
    exact Nat.ne_of_lt (h kv hkv)

/-- Lookup after an in-place update at the same key. -/
theorem lookup_updateVal_self {α : Type} (l : List (ℕ × α)) (k : ℕ) (f : α → α) :
    lookup (updateVal l k f) k = (lookup l k).map f := by
  induction l with
  | nil => rfl
  | cons kv t ih =>
      by_cases h : kv.1 = k
      · simp only [updateVal, List.map_cons, if_pos h, lookup]
        rw [List.find?_cons_of_pos _ (by simp [h]), List.find?_cons_of_pos _ (by simp [h])]
        rfl
      · simp only [updateVal, List.map_cons, if_neg h, lookup]
        rw [List.find?_cons_of_neg _ (by simp [h]), List.find?_cons_of_neg _ (by simp [h])]
        exact ih

/-- Lookup after an in-place update at a different key. -/
theorem lookup_updateVal_ne {α : Type} (l : List (ℕ × α)) (k k' : ℕ) (f : α → α)
    (h : k' ≠ k) : lookup (updateVal l k f) k' = lookup l k' := by
  induction l with
  | nil => rfl
  | cons kv t ih =>
      by_cases hk : kv.1 = k
      · simp only [updateVal, List.map_cons, if_pos hk, lookup]
        rw [List.find?_cons_of_neg _ (by simp only [beq_iff_eq]; omega),
          List.find?_cons_of_neg _ (by simp only [beq_iff_eq, hk]; omega)]
        exact ih
      · by_cases hk' : kv.1 = k'
        · simp only [updateVal, List.map_cons, if_neg hk, lookup]
          rw [List.find?_cons_of_pos _ (by simp [hk']), List.find?_cons_of_pos _ (by simp [hk'])]
        · simp only [updateVal, List.map_cons, if_neg hk, lookup]
          rw [List.find?_cons_of_neg _ (by simp [hk']), List.find?_cons_of_neg _ (by simp [hk'])]
          exact ih

/-- `addFlowToQueues` changes only the `queues` component, which `initFlow`
stores back; the flows of the state it returns are those of the input. -/
theorem initFlow_flows (s : State) (fi : FlowInfo) (cid : ℕ) :
    (initFlow s fi cid).flows = s.flows ++
      [(s.nextFlowId,
        { flowId := s.nextFlowId, name := fi.name.getD "", clientId := cid,
          queueIds := (fi.queues.getD []).map (fun qn => getQueueIdByName s qn),
          priority := fi.priority.getD 1, latency := 0,
          epsilon :=
            match lookup (updateVal s.clients cid
              (fun c => { c with flowIds := c.flowIds ++ [s.nextFlowId] })) cid with
            | some c => (1 - c.SLOpercentile / 100) / (c.flowIds.length : ℚ)
            | none => 0 })] := rfl

/-- `initFlow` bumps the flow counter by one. -/
theorem initFlow_nextFlowId (s : State) (fi : FlowInfo) (cid : ℕ) :
    (initFlow s fi cid).nextFlowId = s.nextFlowId + 1 := rfl

/-- `initFlow` only appends the new id to the owning client's list. -/
theorem initFlow_clients (s : State) (fi : FlowInfo) (cid : ℕ) :
    (initFlow s fi cid).clients =
      updateVal s.clients cid (fun c => { c with flowIds := c.flowIds ++ [s.nextFlowId] }) := rfl

/-- Invariant of the flow-registration fold inside `addClient`: when the
owning client currently has `k` flows and percentile `pct`, the flow
added at batch position `j` (0-based) receives
`epsilon = (1 - pct/100) / (k + j + 1)`. -/
theorem initFlow_fold_epsilon (cid : ℕ) (pct : ℚ) :
    ∀ (fis : List FlowInfo) (st : State) (k : ℕ),
      (∃ c, lookup st.clients cid = some c ∧ c.SLOpercentile = pct ∧ c.flowIds.length = k) →
      (∀ kv ∈ st.flows, kv.1 < st.nextFlowId) →
      ∀ j < fis.length,
        (lookup (fis.foldl (fun st2 fi => initFlow st2 fi cid) st).flows
          (st.nextFlowId + j)).map Flow.epsilon =
          some ((1 - pct / 100) / ((k : ℚ) + (j : ℚ) + 1)) := by
  intro fis
  induction fis with
  | nil =>
      intro st k _ _ j hj
      simp at hj
  | cons fi rest ih =>
      intro st k hc hb j hj
      rcases hc with ⟨c, hcl, hcpct, hclen⟩
      have hnext1 : (initFlow st fi cid).nextFlowId = st.nextFlowId + 1 := rfl
      have hcl1 : lookup (initFlow st fi cid).clients cid =
          some { c with flowIds := c.flowIds ++ [st.nextFlowId] } := by
        rw [initFlow_clients, lookup_updateVal_self, hcl]
        rfl
      have heps : (match lookup (updateVal st.clients cid
            (fun c0 => { c0 with flowIds := c0.flowIds ++ [st.nextFlowId] })) cid with
          | some c0 => (1 - c0.SLOpercentile / 100) / (c0.flowIds.length : ℚ)
          | none => (0 : ℚ)) = (1 - pct / 100) / ((k : ℚ) + 1) := by
        rw [lookup_updateVal_self, hcl]
        simp [hcpct, hclen]
      have hb1 : ∀ kv ∈ (initFlow st fi cid).flows, kv.1 < (initFlow st fi cid).nextFlowId := by
        rw [initFlow_flows, hnext1]
        intro kv hkv
        rcases List.mem_append.mp hkv with hkv | hkv
        · exact Nat.lt_succ_of_lt (hb kv hkv)
        · rcases List.mem_singleton.mp hkv with rfl
          exact Nat.lt_succ_self _
      have hpres : ∀ (fis2 : List FlowInfo) (st2 : State) (key : ℕ) (v : Flow),
          lookup st2.flows key = some v →
          lookup ((fis2.foldl (fun st3 fi3 => initFlow st3 fi3 cid) st2)).flows key = some v := by
        intro fis2
        induction fis2 with
        | nil => intro st2 key v h; exact h
        | cons fi2 rest2 ih2 =>
            intro st2 key v h
            apply ih2
            rw [initFlow_flows, lookup_append, h]
            rfl
      cases j with
      | zero =>
          have hsome : ∃ v : Flow, lookup (initFlow st fi cid).flows st.nextFlowId = some v ∧
              v.epsilon = (1 - pct / 100) / ((k : ℚ) + 1) := by
            rw [initFlow_flows, lookup_append, lookup_eq_none_of_bound st.flows st.nextFlowId hb]
            simp only [Option.or]
            rw [lookup, List.find?_cons_of_pos _ (by simp)]
            exact ⟨_, rfl, heps⟩
          rcases hsome with ⟨v, hv, hveps⟩
          have := hpres rest (initFlow st fi cid) st.nextFlowId v hv
          simp only [List.foldl_cons]
          rw [Nat.add_zero, this]
          rw [Option.map_some', hveps]
          norm_num
      | succ j' =>
          have hc1 : ∃ c1, lookup (initFlow st fi cid).clients cid = some c1 ∧
              c1.SLOpercentile = pct ∧ c1.flowIds.length = k + 1 := by
            refine ⟨_, hcl1, ?_, ?_⟩
            · simpa using hcpct
            · simp [hclen]
          have hj' : j' < rest.length := by
            simpa using Nat.lt_of_succ_lt_succ (by simpa using hj)
          have := ih (initFlow st fi cid) (k + 1) hc1 hb1 j' hj'
          simp only [List.foldl_cons]
          rw [hnext1] at this
          have harith : st.nextFlowId + 1 + j' = st.nextFlowId + (j' + 1) := by omega
          rw [harith] at this
          rw [this]
          congr 2
          push_cast
          ring

end NCModel

namespace NCModel

/-- C1 (amended): for a client registered with percentile `P` (default
99.9) and m flows, the flow at 0-based batch position `j` is assigned
`epsilon = (1 - P/100) / (j + 1)` — the divisor is the number of the
client's flows registered so far, not the total count m; only the last
flow receives `(1 - P/100) / m`. -/
theorem addClient_epsilon_by_position (s : State) (info : ClientInfo) (j : ℕ)
    (hj : j < (info.flows.getD []).length)
    (hflows : ∀ kv ∈ s.flows, kv.1 < s.nextFlowId)
    (hclients : ∀ kv ∈ s.clients, kv.1 < s.nextClientId) :
    (lookup (addClient s info).flows (s.nextFlowId + j)).map Flow.epsilon =
      some ((1 - (info.SLOpercentile.getD (999/10)) / 100) / ((j : ℚ) + 1)) := by
  have hc : ∃ c, lookup (initClient s info).clients s.nextClientId = some c ∧
      c.SLOpercentile = info.SLOpercentile.getD (999/10) ∧ c.flowIds.length = 0 := by
    refine ⟨⟨s.nextClientId, info.name.getD "", [], info.SLO.getD 0,
      info.SLOpercentile.getD (999/10), 0⟩, ?_, rfl, rfl⟩
    show lookup (s.clients ++ [(s.nextClientId, _)]) s.nextClientId = _
    rw [lookup_append, lookup_eq_none_of_bound s.clients s.nextClientId hclients]
    simp only [Option.or]
    rw [lookup, List.find?_cons_of_pos _ (by simp)]
    rfl
  have hb : ∀ kv ∈ (initClient s info).flows, kv.1 < (initClient s info).nextFlowId := hflows
  have := initFlow_fold_epsilon s.nextClientId (info.SLOpercentile.getD (999/10))
    (info.flows.getD []) (initClient s info) 0 hc hb j hj
  rw [addClient]
  simpa using this

/-- C1 witness for the amended theorem: a two-flow client with percentile
50; the second flow (position 1) receives `(1 - 50/100) / 2 = 1/4`. -/
theorem addClient_epsilon_by_position_witness :
    (lookup (addClient ⟨[], [], [(1, ⟨1, "Q", [], 1⟩)], 1, 1, 2⟩
        ⟨some "C", some 1, some 50, some [⟨some "F1", some ["Q"], true, none⟩,
          ⟨some "F2", some ["Q"], true, none⟩], none⟩).flows (1 + 1)).map Flow.epsilon =
      some ((1 - (50 : ℚ) / 100) / ((1 : ℚ) + 1)) :=
  addClient_epsilon_by_position ⟨[], [], [(1, ⟨1, "Q", [], 1⟩)], 1, 1, 2⟩
    ⟨some "C", some 1, some 50, some [⟨some "F1", some ["Q"], true, none⟩,
      ⟨some "F2", some ["Q"], true, none⟩], none⟩ 1
    (by simp) (by simp) (by simp)

/-- C1 counterexample: a client with percentile 50 and two flows.  The
claim says both flows receive `epsilon = (1 - 50/100)/2 = 1/4`, but the
first flow receives `1/2`. -/
theorem addClient_epsilon_counterexample :
    (lookup (addClient ⟨[], [], [(1, ⟨1, "Q", [], 1⟩)], 1, 1, 2⟩
        ⟨some "C", some 1, some 50, some [⟨some "F1", some ["Q"], true, none⟩,
          ⟨some "F2", some ["Q"], true, none⟩], none⟩).flows 1).map Flow.epsilon =
      some (1/2) ∧ ((1 : ℚ)/2 ≠ (1 - (50 : ℚ) / 100) / 2) := by
  constructor
  · simp [addClient, initClient, initFlow, addFlowToQueues, updateVal, lookup,
      getQueueIdByName, List.find?, List.foldl]
    norm_num
  · norm_num

end NCModel

namespace NCModel

/-- C10: a client descriptor without the optional `SLOpercentile` member
is registered with `SLOpercentile = 99.9`, and the corresponding
tail-violation probability `1 - SLOpercentile/100` is `0.001`. -/
theorem initClient_default_percentile (s : State) (info : ClientInfo)
    (hnone : info.SLOpercentile = none)
    (hclients : ∀ kv ∈ s.clients, kv.1 < s.nextClientId) :
    ∃ c, lookup (initClient s info).clients s.nextClientId = some c ∧
      c.SLOpercentile = 999/10 ∧ 1 - c.SLOpercentile / 100 = 1/1000 := by
  refine ⟨⟨s.nextClientId, info.name.getD "", [], info.SLO.getD 0,
    info.SLOpercentile.getD (999/10), 0⟩, ?_, ?_, ?_⟩
  · show lookup (s.clients ++ [(s.nextClientId, _)]) s.nextClientId = _
    rw [lookup_append, lookup_eq_none_of_bound s.clients s.nextClientId hclients]
    simp only [Option.or]
    rw [lookup, List.find?_cons_of_pos _ (by simp)]
    rfl
  · rw [hnone]
    rfl
  · rw [hnone]
    show (1 : ℚ) - (999/10 : ℚ) / 100 = 1/1000
    norm_num

/-- C10 witness: registration of a percentile-free descriptor on the
empty registry. -/
theorem initClient_default_percentile_witness :
    ∃ c, lookup (initClient emptyState
      ⟨some "A", some 1, none, some [], none⟩).clients emptyState.nextClientId = some c ∧
      c.SLOpercentile = 999/10 ∧ 1 - c.SLOpercentile / 100 = 1/1000 :=
  initClient_default_percentile emptyState ⟨some "A", some 1, none, some [], none⟩
    rfl (by simp [emptyState])

/-- Shared concrete registry inputs for the admission-control claims. -/
def exampleQueueInfo : QueueInfo := ⟨some "Q", some 1⟩

/-- Client A: SLO 1 second, one flow FA through queue Q. -/
def clientInfoA : ClientInfo :=
  ⟨some "A", some 1, none, some [⟨some "FA", some ["Q"], true, none⟩], none⟩

/-- Client B: SLO 1/2 second, one flow FB through queue Q. -/
def clientInfoB : ClientInfo :=
  ⟨some "B", some (1/2), none, some [⟨some "FB", some ["Q"], true, none⟩], none⟩

/-- Registry holding just queue Q. -/
def state0 : State := addQueue emptyState exampleQueueInfo

/-- C3 evaluation (the code side of the code bug): with a single client
of SLO 1, `configurePrioritiesBySLO` assigns priority 1 to its flow,
because the walk increments the priority counter before the first
assignment; the repository's own `priorityAlgoBySLOTest` asserts
priority 0 for this input. -/
theorem configurePriorities_smallest_gets_priority_one :
    ((lookup (configurePrioritiesBySLO (addClient state0 clientInfoA)).flows 1).map
      Flow.priority) = some 1 ∧ (1 : ℕ) ≠ 0 := by
  constructor
  · simp [state0, exampleQueueInfo, clientInfoA, addQueue, emptyState, addClient,
      initClient, initFlow, addFlowToQueues, updateVal, lookup, getQueueIdByName,
      configurePrioritiesBySLO, configLoop, sortBySLO, insertBySLO, setFlowPriority,
      List.find?, List.foldl]
  · decide

end NCModel

namespace NCModel

set_option maxHeartbeats 2000000 in
/-- C2 counterexample: queue Q holds admitted client A (SLO 1, flow FA).
A second AddClients call with client B (SLO 1/2) is rejected on its SLO
check (`admitted = false`, `status = SUCCESS`), yet the registry after
the call differs from the registry before it: FA's priority was 1 before
and is 2 after, because `configurePrioritiesBySLO` ran over the enlarged
client set and the rollback only deletes the new clients. -/
theorem addClients_rejected_registry_changed :
    (snc_meister_add_clients_svc (fun _ _ => 2)
        (snc_meister_add_clients_svc (fun _ _ => 0) state0 [clientInfoA]).1 [clientInfoB]).2 =
      ⟨.success, false⟩ ∧
    ((lookup (snc_meister_add_clients_svc (fun _ _ => 2)
        (snc_meister_add_clients_svc (fun _ _ => 0) state0 [clientInfoA]).1
          [clientInfoB]).1.flows 1).map Flow.priority) = some 2 ∧
    ((lookup (snc_meister_add_clients_svc (fun _ _ => 0) state0 [clientInfoA]).1.flows 1).map
      Flow.priority) = some 1 ∧
    some (2 : ℕ) ≠ some (1 : ℕ) := by
  simp [state0, exampleQueueInfo, clientInfoA, clientInfoB, addQueue, emptyState,
    addClient, initClient, initFlow, addFlowToQueues, updateVal, lookup,
    getQueueIdByName, getClientIdByName, getFlowIdByName, configurePrioritiesBySLO,
    configLoop, sortBySLO, insertBySLO, setFlowPriority, snc_meister_add_clients_svc,
    checkClientInfos, checkClientInfo, checkFlowInfos, checkFlowInfo,
    addDependenciesLoop, addDependenciesCheck, latencySweep, calcClientLatency,
    setFlowLatency, markAffectedFlows, markFuel, affectedClientIds, insertSortedNat,
    recheckLoop, delClient, delFlow, eraseKey, List.find?, List.foldl, List.eraseP]
  norm_num [state0, exampleQueueInfo, clientInfoA, clientInfoB, addQueue, emptyState,
    addClient, initClient, initFlow, addFlowToQueues, updateVal, lookup,
    getQueueIdByName, getClientIdByName, getFlowIdByName, configurePrioritiesBySLO,
    configLoop, sortBySLO, insertBySLO, setFlowPriority, snc_meister_add_clients_svc,
    checkClientInfos, checkClientInfo, checkFlowInfos, checkFlowInfo,
    addDependenciesLoop, addDependenciesCheck, latencySweep, calcClientLatency,
    setFlowLatency, markAffectedFlows, markFuel, affectedClientIds, insertSortedNat,
    recheckLoop, delClient, delFlow, eraseKey, List.find?, List.foldl, List.eraseP]
  exact ⟨_, _, ⟨rfl, rfl⟩, rfl⟩

end NCModel

namespace NCModel

/-- Closure obligation of a marked pair `(flowId, index)`: every flow (that
exists) at a queue (that exists) on the flow's path at hop index at least
`index`, with priority no higher than the flow's (numerically at least
`f.priority`), is in the set. -/
def affectedObligation (s : State) (fi : ℕ × ℕ) (A : List (ℕ × ℕ)) : Prop :=
  ∀ f, lookup s.flows fi.1 = some f →
    ∀ qid ∈ f.queueIds.drop fi.2, ∀ q, lookup s.queues qid = some q →
      ∀ gj ∈ q.flows, ∀ g, lookup s.flows gj.1 = some g →
        f.priority ≤ g.priority → gj ∈ A

/-- The obligation is monotone in the set. -/
theorem affectedObligation_mono (s : State) (fi : ℕ × ℕ) (A B : List (ℕ × ℕ))
    (h : affectedObligation s fi A) (hAB : ∀ x ∈ A, x ∈ B) :
    affectedObligation s fi B := by
  intro f hf qid hqid q hq gj hgj g hg hpr
  exact hAB _ (h f hf qid hqid q hq gj hgj g hg hpr)

/-- Generic fold monotonicity for accumulator-growing steps. -/
theorem foldl_mem_mono {β : Type} (g : List (ℕ × ℕ) → β → List (ℕ × ℕ))
    (hg : ∀ acc b, ∀ x ∈ acc, x ∈ g acc b) :
    ∀ (l : List β) (acc : List (ℕ × ℕ)), ∀ x ∈ acc, x ∈ l.foldl g acc := by
  intro l
  induction l with
  | nil => intro acc x hx; exact hx
  | cons b rest ih => intro acc x hx; exact ih (g acc b) x (hg acc b x hx)

/-- The marking only grows the set. -/
theorem markAffectedFlows_mono (s : State) :
    ∀ (fuel : ℕ) (A : List (ℕ × ℕ)) (fi : ℕ × ℕ) (pr : ℕ),
      ∀ x ∈ A, x ∈ markAffectedFlows s fuel A fi pr := by
  intro fuel
  induction fuel with
  | zero => intro A fi pr x hx; exact hx
  | succ fuel ih =>
      intro A fi pr x hx
      rw [markAffectedFlows]
      cases hlf : lookup s.flows fi.1 with
      | none => exact hx
      | some f =>
          by_cases h1 : f.priority < pr
          · simp only [if_pos h1]; exact hx
          · simp only [if_neg h1]
            by_cases h2 : fi ∈ A
            · simp only [if_pos h2]; exact hx
            · simp only [if_neg h2]
              apply foldl_mem_mono
              · intro acc qid y hy
                cases hlq : lookup s.queues qid with
                | none => simpa [hlq] using hy
                | some q =>
                    simp only [hlq]
                    exact foldl_mem_mono _ (fun acc2 gj z hz => ih acc2 gj f.priority z hz)
                      q.flows acc y hy
              · exact List.mem_cons_of_mem _ hx

/-- A marked start pair is in the result when its flow exists and clears
the priority threshold (positive fuel). -/
theorem markAffectedFlows_self_mem (s : State) (fuel : ℕ) (A : List (ℕ × ℕ))
    (fi : ℕ × ℕ) (pr : ℕ) (f : Flow) (hlf : lookup s.flows fi.1 = some f)
    (hpr : pr ≤ f.priority) (hfuel : 0 < fuel) :
    fi ∈ markAffectedFlows s fuel A fi pr := by
  cases fuel with
  | zero => exact absurd hfuel (by simp)
  | succ fuel =>
      rw [markAffectedFlows, hlf]
      simp only [if_neg (Nat.not_lt.mpr hpr)]
      by_cases h2 : fi ∈ A
      · simp only [if_pos h2]; exact h2
      · simp only [if_neg h2]
        apply foldl_mem_mono
        · intro acc qid y hy
          cases hlq : lookup s.queues qid with
          | none => simpa [hlq] using hy
          | some q =>
              simp only [hlq]
              exact foldl_mem_mono _
                (fun acc2 gj z hz => markAffectedFlows_mono s fuel acc2 gj f.priority z hz)
                q.flows acc y hy
        · exact List.mem_cons_self _ _

end NCModel

namespace NCModel

/-- Duplicate-free lists inside a finite universe are no longer than it. -/
theorem length_le_card_of_nodup (U : Finset (ℕ × ℕ)) (B : List (ℕ × ℕ))
    (hN : B.Nodup) (hsub : ∀ x ∈ B, x ∈ U) : B.length ≤ U.card := by
  rw [← List.toFinset_card_of_nodup hN]
  apply Finset.card_le_card
  intro x hx
  exact hsub x (List.mem_toFinset.mp hx)

/-- Main invariant of the marking: the result is duplicate-free, stays in
the universe `U` of pairs, and every element either was already marked or
has its closure obligation satisfied by the result. -/
theorem markAffectedFlows_spec (s : State) (U : Finset (ℕ × ℕ))
    (hUq : ∀ qid q, lookup s.queues qid = some q → ∀ gj ∈ q.flows, gj ∈ U) :
    ∀ (fuel : ℕ) (A : List (ℕ × ℕ)) (fi : ℕ × ℕ) (pr : ℕ),
      A.Nodup → (∀ x ∈ A, x ∈ U) → fi ∈ U → U.card < fuel + A.length →
      (markAffectedFlows s fuel A fi pr).Nodup ∧
      (∀ x ∈ markAffectedFlows s fuel A fi pr, x ∈ U) ∧
      U.card < fuel + A.length ∧
      (∀ x ∈ markAffectedFlows s fuel A fi pr,
        x ∈ A ∨ affectedObligation s x (markAffectedFlows s fuel A fi pr)) := by
  intro fuel
  induction fuel with
  | zero =>
      intro A fi pr hN hsub _ hfuel
      exact ⟨hN, hsub, hfuel, fun x hx => Or.inl hx⟩
  | succ fuel ih =>
      intro A fi pr hN hsub hfiU hfuel
      rw [markAffectedFlows]
      cases hlf : lookup s.flows fi.1 with
      | none => exact ⟨hN, hsub, hfuel, fun x hx => Or.inl hx⟩
      | some f =>
          by_cases h1 : f.priority < pr
          · simp only [if_pos h1]
            exact ⟨hN, hsub, hfuel, fun x hx => Or.inl hx⟩
          · simp only [if_neg h1]
            by_cases h2 : fi ∈ A
            · simp only [if_pos h2]
              exact ⟨hN, hsub, hfuel, fun x hx => Or.inl hx⟩
            · simp only [if_neg h2]
              -- Invariant carried along the two folds.
              have hQstep : ∀ (acc : List (ℕ × ℕ)) (gj : ℕ × ℕ), gj ∈ U →
                  (acc.Nodup ∧ (∀ x ∈ acc, x ∈ U) ∧ U.card < fuel + acc.length ∧
                    (∀ x ∈ acc, x ∈ (fi :: A) ∨ affectedObligation s x acc)) →
                  ((markAffectedFlows s fuel acc gj f.priority).Nodup ∧
                    (∀ x ∈ markAffectedFlows s fuel acc gj f.priority, x ∈ U) ∧
                    U.card < fuel + (markAffectedFlows s fuel acc gj f.priority).length ∧
                    (∀ x ∈ markAffectedFlows s fuel acc gj f.priority,
                      x ∈ (fi :: A) ∨
                        affectedObligation s x (markAffectedFlows s fuel acc gj f.priority))) ∧
                  (∀ x ∈ acc, x ∈ markAffectedFlows s fuel acc gj f.priority) := by
                intro acc gj hgjU hQ
                rcases hQ with ⟨hn, hu, hf2, hof⟩
                have hmono := fun x hx => markAffectedFlows_mono s fuel acc gj f.priority x hx
                rcases ih acc gj f.priority hn hu hgjU hf2 with ⟨hn', hu', _, hof'⟩
                have hlen : acc.length ≤ (markAffectedFlows s fuel acc gj f.priority).length := by
                  have h1l := length_le_card_of_nodup ((markAffectedFlows s fuel acc gj
                    f.priority).toFinset) acc hn
                    (fun x hx => List.mem_toFinset.mpr (hmono x hx))
                  rwa [List.toFinset_card_of_nodup hn'] at h1l
                refine ⟨⟨hn', hu', by omega, ?_⟩, hmono⟩
                intro x hx
                rcases hof' x hx with hxacc | hobl
                · rcases hof x hxacc with hxA1 | hobl2
                  · exact Or.inl hxA1
                  · exact Or.inr (affectedObligation_mono s x acc _ hobl2 hmono)
                · exact Or.inr hobl
              have hQinner : ∀ (gjs : List (ℕ × ℕ)), (∀ gj ∈ gjs, gj ∈ U) →
                  ∀ (acc : List (ℕ × ℕ)),
                  (acc.Nodup ∧ (∀ x ∈ acc, x ∈ U) ∧ U.card < fuel + acc.length ∧
                    (∀ x ∈ acc, x ∈ (fi :: A) ∨ affectedObligation s x acc)) →
                  (((gjs.foldl (fun acc2 fj => markAffectedFlows s fuel acc2 fj f.priority)
                      acc)).Nodup ∧
                    (∀ x ∈ gjs.foldl (fun acc2 fj => markAffectedFlows s fuel acc2 fj f.priority)
                      acc, x ∈ U) ∧
                    U.card < fuel + (gjs.foldl
                      (fun acc2 fj => markAffectedFlows s fuel acc2 fj f.priority) acc).length ∧
                    (∀ x ∈ gjs.foldl (fun acc2 fj => markAffectedFlows s fuel acc2 fj f.priority)
                      acc, x ∈ (fi :: A) ∨ affectedObligation s x
                        (gjs.foldl (fun acc2 fj => markAffectedFlows s fuel acc2 fj f.priority)
                          acc))) ∧
                  (∀ x ∈ acc, x ∈ gjs.foldl
                    (fun acc2 fj => markAffectedFlows s fuel acc2 fj f.priority) acc) := by
                intro gjs
                induction gjs with
                | nil => intro _ acc hQ; exact ⟨hQ, fun x hx => hx⟩
                | cons hd tl ihg =>
                    intro hsubU acc hQ
                    rcases hQstep acc hd (hsubU hd (by simp)) hQ with ⟨hQ1, hm1⟩
                    rcases ihg (fun gj hgj => hsubU gj (by simp [hgj])) _ hQ1 with ⟨hQ2, hm2⟩
                    exact ⟨hQ2, fun x hx => hm2 x (hm1 x hx)⟩
              have hQouter : ∀ (qids : List ℕ) (acc : List (ℕ × ℕ)),
                  (acc.Nodup ∧ (∀ x ∈ acc, x ∈ U) ∧ U.card < fuel + acc.length ∧
                    (∀ x ∈ acc, x ∈ (fi :: A) ∨ affectedObligation s x acc)) →
                  (((qids.foldl (fun acc qid =>
                      match lookup s.queues qid with
                      | none => acc
                      | some q => q.flows.foldl
                          (fun acc2 fj => markAffectedFlows s fuel acc2 fj f.priority) acc)
                      acc)).Nodup ∧
                    (∀ x ∈ qids.foldl (fun acc qid =>
                      match lookup s.queues qid with
                      | none => acc
                      | some q => q.flows.foldl
                          (fun acc2 fj => markAffectedFlows s fuel acc2 fj f.priority) acc)
                      acc, x ∈ U) ∧
                    U.card < fuel + (qids.foldl (fun acc qid =>
                      match lookup s.queues qid with
                      | none => acc
                      | some q => q.flows.foldl
                          (fun acc2 fj => markAffectedFlows s fuel acc2 fj f.priority) acc)
                      acc).length ∧
                    (∀ x ∈ qids.foldl (fun acc qid =>
                      match lookup s.queues qid with
                      | none => acc
                      | some q => q.flows.foldl
                          (fun acc2 fj => markAffectedFlows s fuel acc2 fj f.priority) acc)
                      acc, x ∈ (fi :: A) ∨ affectedObligation s x
                        (qids.foldl (fun acc qid =>
                          match lookup s.queues qid with
                          | none => acc
                          | some q => q.flows.foldl
                              (fun acc2 fj => markAffectedFlows s fuel acc2 fj f.priority) acc)
                          acc))) ∧
                  (∀ x ∈ acc, x ∈ qids.foldl (fun acc qid =>
                      match lookup s.queues qid with
                      | none => acc
                      | some q => q.flows.foldl
                          (fun acc2 fj => markAffectedFlows s fuel acc2 fj f.priority) acc)
                      acc) := by
                intro qids
                induction qids with
                | nil => intro acc hQ; exact ⟨hQ, fun x hx => hx⟩
                | cons hd tl ihq =>
                    intro acc hQ
                    simp only [List.foldl_cons]
                    cases hlq : lookup s.queues hd with
                    | none =>
                        exact ihq acc hQ
                    | some q =>
                        rcases hQinner q.flows (fun gj hgj => hUq hd q hlq gj hgj) acc hQ
                          with ⟨hQ1, hm1⟩
                        rcases ihq _ hQ1 with ⟨hQ2, hm2⟩
                        exact ⟨hQ2, fun x hx => hm2 x (hm1 x hx)⟩
              -- A flow that shares a queue on the path and clears the priority
              -- threshold ends up in the inner fold.
              have hhitsInner : ∀ (gjs : List (ℕ × ℕ)), (∀ gj ∈ gjs, gj ∈ U) →
                  ∀ (acc : List (ℕ × ℕ)),
                  (acc.Nodup ∧ (∀ x ∈ acc, x ∈ U) ∧ U.card < fuel + acc.length ∧
                    (∀ x ∈ acc, x ∈ (fi :: A) ∨ affectedObligation s x acc)) →
                  ∀ gj ∈ gjs, ∀ g, lookup s.flows gj.1 = some g →
                    f.priority ≤ g.priority →
                    gj ∈ gjs.foldl (fun acc2 fj => markAffectedFlows s fuel acc2 fj f.priority)
                      acc := by
                intro gjs
                induction gjs with
                | nil => intro _ acc _ gj hgj; exact absurd hgj (by simp)
                | cons hd tl ihg =>
                    intro hsubU acc hQ gj hgj g hg hpr
                    simp only [List.foldl_cons]
                    rcases List.mem_cons.mp hgj with heq | hgjtl
                    · have hc := hQ.2.2.1
                      have hl := length_le_card_of_nodup U acc hQ.1 hQ.2.1
                      have hfpos : 0 < fuel := by omega
                      have hg' : lookup s.flows hd.1 = some g := heq ▸ hg
                      have hin : hd ∈ markAffectedFlows s fuel acc hd f.priority :=
                        markAffectedFlows_self_mem s fuel acc hd f.priority g hg' hpr hfpos
                      rcases hQstep acc hd (hsubU hd (by simp)) hQ with ⟨hQ1, _⟩
                      rcases hQinner tl (fun y hy => hsubU y (by simp [hy])) _ hQ1 with ⟨_, hm⟩
                      rw [heq]
                      exact hm hd hin
                    · rcases hQstep acc hd (hsubU hd (by simp)) hQ with ⟨hQ1, _⟩
                      exact ihg (fun y hy => hsubU y (by simp [hy])) _ hQ1 gj hgjtl g hg hpr
              -- Same, for the outer fold over downstream queue ids.
              have hhitsOuter : ∀ (qids : List ℕ) (acc : List (ℕ × ℕ)),
                  (acc.Nodup ∧ (∀ x ∈ acc, x ∈ U) ∧ U.card < fuel + acc.length ∧
                    (∀ x ∈ acc, x ∈ (fi :: A) ∨ affectedObligation s x acc)) →
                  ∀ qid ∈ qids, ∀ q, lookup s.queues qid = some q →
                    ∀ gj ∈ q.flows, ∀ g, lookup s.flows gj.1 = some g →
                      f.priority ≤ g.priority →
                      gj ∈ qids.foldl (fun acc qid =>
                        match lookup s.queues qid with
                        | none => acc
                        | some q => q.flows.foldl
                            (fun acc2 fj => markAffectedFlows s fuel acc2 fj f.priority) acc)
                        acc := by
                intro qids
                induction qids with
                | nil => intro acc _ qid hqid; exact absurd hqid (by simp)
                | cons hd tl ihq =>
                    intro acc hQ qid hqid q hq gj hgj g hg hpr
                    simp only [List.foldl_cons]
                    rcases List.mem_cons.mp hqid with heq | hqtl
                    · have hq' : lookup s.queues hd = some q := heq ▸ hq
                      have hin := hhitsInner q.flows (fun y hy => hUq hd q hq' y hy) acc hQ
                        gj hgj g hg hpr
                      rcases hQinner q.flows (fun y hy => hUq hd q hq' y hy) acc hQ
                        with ⟨hQ1, _⟩
                      rcases hQouter tl _ hQ1 with ⟨_, hm⟩
                      simp only [hq']
                      exact hm gj hin
                    · cases hlq : lookup s.queues hd with
                      | none => exact ihq acc hQ qid hqtl q hq gj hgj g hg hpr
                      | some q2 =>
                          rcases hQinner q2.flows (fun y hy => hUq hd q2 hlq y hy) acc hQ
                            with ⟨hQ1, _⟩
                          exact ihq _ hQ1 qid hqtl q hq gj hgj g hg hpr
              -- Assemble: the seed `fi :: A` satisfies the invariant.
              have hQ0 : ((fi :: A).Nodup ∧ (∀ x ∈ fi :: A, x ∈ U) ∧
                  U.card < fuel + (fi :: A).length ∧
                  (∀ x ∈ fi :: A, x ∈ (fi :: A) ∨ affectedObligation s x (fi :: A))) := by
                refine ⟨List.nodup_cons.mpr ⟨h2, hN⟩, ?_, ?_, fun x hx => Or.inl hx⟩
                · intro x hx
                  rcases List.mem_cons.mp hx with heq | hxA
                  · exact heq ▸ hfiU
                  · exact hsub x hxA
                · simp only [List.length_cons]; omega
              rcases hQouter (f.queueIds.drop fi.2) (fi :: A) hQ0 with ⟨⟨hn', hu', _, hof'⟩, _⟩
              refine ⟨hn', hu', hfuel, ?_⟩
              intro x hx
              rcases hof' x hx with hxA1 | hobl
              · rcases List.mem_cons.mp hxA1 with heq | hxA
                · refine Or.inr ?_
                  intro f2 hf2 qid hqid q hq gj hgj g hg hpr
                  rw [heq] at hf2
                  have hf2f : f2 = f := Option.some.inj (hf2.symm.trans hlf)
                  rw [heq, hf2f] at hqid
                  rw [hf2f] at hpr
                  exact hhitsOuter (f.queueIds.drop fi.2) (fi :: A) hQ0 qid hqid q hq gj hgj
                    g hg hpr
                · exact Or.inl hxA
              · exact Or.inr hobl

/-- Concrete two-flow, one-queue registry instantiating the fixed-point
theorem: flows 1 (priority 1) and 2 (priority 2) both traverse queue 1. -/
def wstate : State :=
  ⟨[(1, ⟨1, "f1", 1, [1], 1, 0, 1/2⟩), (2, ⟨2, "f2", 2, [1], 2, 0, 1/2⟩)],
   [], [(1, ⟨1, "q", [(1, 0), (2, 0)], 100⟩)], 3, 3, 2⟩

/-- Universe of `(flowId, index)` pairs of `wstate`. -/
def wU : Finset (ℕ × ℕ) := {(1, 0), (2, 0)}

/-- **C8.** The affected-flow set computed by the DFS marking of an
AddClients call — the fold of `markAffectedFlows` with priority threshold 0
over the start pairs, as in `snc_meister_add_clients_svc` — is a fixed
point: whenever a pair `(f, i)` is in the set, every existing flow `g` at an
existing queue on `f`'s path at hop index ≥ `i` whose priority is ≥ `f`'s
priority (numerically) is also in the set. `U` is any finite universe
containing the start pairs and all pairs on queue incidence lists, and the
fuel exceeds its size (as `markFuel` does). -/
theorem markAffectedFlows_fixed_point (s : State) (U : Finset (ℕ × ℕ))
    (hUq : ∀ qid q, lookup s.queues qid = some q → ∀ gj ∈ q.flows, gj ∈ U)
    (starts : List (ℕ × ℕ)) (hstarts : ∀ p ∈ starts, p ∈ U)
    (fuel : ℕ) (hfuel : U.card < fuel) :
    ∀ fi ∈ starts.foldl (fun acc p => markAffectedFlows s fuel acc p 0) [],
      affectedObligation s fi
        (starts.foldl (fun acc p => markAffectedFlows s fuel acc p 0) []) := by
  have key : ∀ (l : List (ℕ × ℕ)), (∀ p ∈ l, p ∈ U) → ∀ (acc : List (ℕ × ℕ)),
      acc.Nodup → (∀ x ∈ acc, x ∈ U) → U.card < fuel + acc.length →
      (∀ x ∈ acc, affectedObligation s x acc) →
      ((l.foldl (fun acc p => markAffectedFlows s fuel acc p 0) acc).Nodup ∧
        (∀ x ∈ l.foldl (fun acc p => markAffectedFlows s fuel acc p 0) acc, x ∈ U) ∧
        U.card < fuel + (l.foldl (fun acc p => markAffectedFlows s fuel acc p 0) acc).length ∧
        (∀ x ∈ l.foldl (fun acc p => markAffectedFlows s fuel acc p 0) acc,
          affectedObligation s x
            (l.foldl (fun acc p => markAffectedFlows s fuel acc p 0) acc))) := by
    intro l
    induction l with
    | nil => intro _ acc hN hsub hc hob; exact ⟨hN, hsub, hc, hob⟩
    | cons hd tl ihl =>
        intro hsubU acc hN hsub hc hob
        simp only [List.foldl_cons]
        rcases markAffectedFlows_spec s U hUq fuel acc hd 0 hN hsub (hsubU hd (by simp)) hc
          with ⟨hN1, hsub1, _, hof1⟩
        have hmono := fun x hx => markAffectedFlows_mono s fuel acc hd 0 x hx
        have hlen : acc.length ≤ (markAffectedFlows s fuel acc hd 0).length := by
          have h1l := length_le_card_of_nodup ((markAffectedFlows s fuel acc hd 0).toFinset)
            acc hN (fun x hx => List.mem_toFinset.mpr (hmono x hx))
          rwa [List.toFinset_card_of_nodup hN1] at h1l
        have hob1 : ∀ x ∈ markAffectedFlows s fuel acc hd 0,
            affectedObligation s x (markAffectedFlows s fuel acc hd 0) := by
          intro x hx
          rcases hof1 x hx with hxacc | hobl
          · exact affectedObligation_mono s x acc _ (hob x hxacc) hmono
          · exact hobl
        exact ihl (fun p hp => hsubU p (by simp [hp])) _ hN1 hsub1 (by omega) hob1
  intro fi hfi
  exact (key starts hstarts [] (by simp) (by simp) (by simpa using hfuel) (by simp)).2.2.2 fi hfi

/-- Witness: on `wstate`, marking from flow 1's first hop yields a set
whose every member satisfies its closure obligation in that same set. -/
theorem markAffectedFlows_fixed_point_witness :
    (∀ qid q, lookup wstate.queues qid = some q → ∀ gj ∈ q.flows, gj ∈ wU) ∧
    (∀ p ∈ [((1 : ℕ), (0 : ℕ))], p ∈ wU) ∧ wU.card < 3 ∧
    (∀ fi ∈ [((1 : ℕ), (0 : ℕ))].foldl (fun acc p => markAffectedFlows wstate 3 acc p 0) [],
      affectedObligation wstate fi
        ([((1 : ℕ), (0 : ℕ))].foldl (fun acc p => markAffectedFlows wstate 3 acc p 0) [])) := by
  have hUq : ∀ qid q, lookup wstate.queues qid = some q → ∀ gj ∈ q.flows, gj ∈ wU := by
    intro qid q hq gj hgj
    have hex : ∃ kv ∈ wstate.queues, kv.2 = q := by
      unfold lookup at hq
      cases hfind : List.find? (fun kv => kv.1 == qid) wstate.queues with
      | none => rw [hfind] at hq; exact absurd hq (by simp)
      | some kv =>
          rw [hfind] at hq
          exact ⟨kv, List.mem_of_find?_eq_some hfind, by simpa using hq⟩
    rcases hex with ⟨kv, hkv, hq2⟩
    have hkv' : kv = (1, ⟨1, "q", [(1, 0), (2, 0)], 100⟩) := by
      simpa [wstate] using hkv
    rw [hkv'] at hq2
    rw [← hq2] at hgj
    simp at hgj
    rcases hgj with h | h
    · rw [h]; decide
    · rw [h]; decide
  have hst : ∀ p ∈ [((1 : ℕ), (0 : ℕ))], p ∈ wU := by
    intro p hp
    simp at hp
    rw [hp]
    decide
  have hcard : wU.card < 3 := by decide
  exact ⟨hUq, hst, hcard, markAffectedFlows_fixed_point wstate wU hUq _ hst 3 hcard⟩

end NCModel

namespace NCModel

/-- Immutable attributes of a flow: everything except the recomputed
`priority` and `latency` fields. -/
def flowShape (f : Flow) : ℕ × String × ℕ × List ℕ × ℚ :=
  (f.flowId, f.name, f.clientId, f.queueIds, f.epsilon)

/-- Immutable attributes of a client: everything except the recomputed
`latency` field. -/
def clientShape (c : Client) : ℕ × String × List ℕ × ℚ × ℚ :=
  (c.clientId, c.name, c.flowIds, c.SLO, c.SLOpercentile)

/-- Structural content of the registry: the flow and client maps up to
their mutable fields, and the queue map exactly (the monotone id
counters are not part of the registry content). -/
def stateShape (s : State) :
    List (ℕ × (ℕ × String × ℕ × List ℕ × ℚ)) ×
      List (ℕ × (ℕ × String × List ℕ × ℚ × ℚ)) × List (ℕ × Queue) :=
  (s.flows.map (fun kv => (kv.1, flowShape kv.2)),
   s.clients.map (fun kv => (kv.1, clientShape kv.2)),
   s.queues)

/-- Freshness invariant: every id in use is below its counter (true of
every registry reachable from `NC::NC()`). -/
def WF (s : State) : Prop :=
  (∀ kv ∈ s.flows, kv.1 < s.nextFlowId) ∧
  (∀ kv ∈ s.clients, kv.1 < s.nextClientId) ∧
  (∀ kv ∈ s.queues, ∀ e ∈ kv.2.flows, e.1 < s.nextFlowId)

instance (s : State) : Decidable (WF s) := by
  unfold WF
  infer_instance

/-- Head equation of `lookup` at the stored key. -/
theorem lookup_cons_self {α : Type} (kv : ℕ × α) (t : List (ℕ × α)) (k : ℕ)
    (h : kv.1 = k) : lookup (kv :: t) k = some kv.2 := by
  rw [lookup, List.find?_cons_of_pos _ (by simp [h])]
  rfl

/-- Head equation of `lookup` at another key. -/
theorem lookup_cons_ne {α : Type} (kv : ℕ × α) (t : List (ℕ × α)) (k : ℕ)
    (h : kv.1 ≠ k) : lookup (kv :: t) k = lookup t k := by
  rw [lookup, List.find?_cons_of_neg _ (by simp [h])]
  rfl

/-- Head equation of `updateVal`. -/
theorem updateVal_cons {α : Type} (kv : ℕ × α) (t : List (ℕ × α)) (k : ℕ) (f : α → α) :
    updateVal (kv :: t) k f =
      (if kv.1 = k then (kv.1, f kv.2) else kv) :: updateVal t k f := rfl

/-- Head equation of `eraseKey` at the erased key. -/
theorem eraseKey_cons_self {α : Type} (kv : ℕ × α) (t : List (ℕ × α)) (k : ℕ)
    (h : kv.1 = k) : eraseKey (kv :: t) k = eraseKey t k := by
  simp [eraseKey, List.filter_cons, h]

/-- Head equation of `eraseKey` at another key. -/
theorem eraseKey_cons_ne {α : Type} (kv : ℕ × α) (t : List (ℕ × α)) (k : ℕ)
    (h : kv.1 ≠ k) : eraseKey (kv :: t) k = kv :: eraseKey t k := by
  simp [eraseKey, List.filter_cons, h]

/-- Erasing one key leaves lookups at other keys unchanged. -/
theorem lookup_eraseKey_ne {α : Type} (l : List (ℕ × α)) (k k' : ℕ) (h : k' ≠ k) :
    lookup (eraseKey l k) k' = lookup l k' := by
  induction l with
  | nil => rfl
  | cons kv t ih =>
      by_cases hk : kv.1 = k
      · rw [eraseKey_cons_self kv t k hk, ih, lookup_cons_ne kv t k' (by omega)]
      · rw [eraseKey_cons_ne kv t k hk]
        by_cases hk' : kv.1 = k'
        · rw [lookup_cons_self _ _ _ hk', lookup_cons_self _ _ _ hk']
        · rw [lookup_cons_ne _ _ _ hk', lookup_cons_ne _ _ _ hk', ih]

/-- `eraseKey` distributes over concatenation. -/
theorem eraseKey_append {α : Type} (l1 l2 : List (ℕ × α)) (k : ℕ) :
    eraseKey (l1 ++ l2) k = eraseKey l1 k ++ eraseKey l2 k := by
  simp [eraseKey, List.filter_append]

/-- Erasing an absent key is the identity. -/
theorem eraseKey_eq_self {α : Type} (l : List (ℕ × α)) (k : ℕ)
    (h : ∀ kv ∈ l, kv.1 ≠ k) : eraseKey l k = l := by
  rw [eraseKey, List.filter_eq_self]
  intro kv hkv
  simpa using h kv hkv

/-- Updating a key then erasing it is just erasing it. -/
theorem eraseKey_updateVal_self {α : Type} (l : List (ℕ × α)) (k : ℕ) (f : α → α) :
    eraseKey (updateVal l k f) k = eraseKey l k := by
  induction l with
  | nil => rfl
  | cons kv t ih =>
      rw [updateVal_cons]
      by_cases hk : kv.1 = k
      · rw [if_pos hk, eraseKey_cons_self (kv.1, f kv.2) _ _ hk,
          eraseKey_cons_self kv t k hk, ih]
      · rw [if_neg hk, eraseKey_cons_ne kv _ _ hk, eraseKey_cons_ne kv t k hk, ih]

/-- Updates and erasures at distinct keys commute. -/
theorem eraseKey_updateVal_ne {α : Type} (l : List (ℕ × α)) (k n : ℕ) (f : α → α)
    (h : n ≠ k) : eraseKey (updateVal l k f) n = updateVal (eraseKey l n) k f := by
  induction l with
  | nil => rfl
  | cons kv t ih =>
      rw [updateVal_cons]
      by_cases hk : kv.1 = k
      · rw [if_pos hk, eraseKey_cons_ne (kv.1, f kv.2) _ n ((by omega : kv.1 ≠ n)),
          eraseKey_cons_ne kv t n (by omega), updateVal_cons, if_pos hk, ih]
      · rw [if_neg hk]
        by_cases hn : kv.1 = n
        · rw [eraseKey_cons_self kv _ _ hn, eraseKey_cons_self kv t n hn, ih]
        · rw [eraseKey_cons_ne kv _ _ hn, eraseKey_cons_ne kv t n hn, updateVal_cons,
            if_neg hk, ih]

/-- An update that fixes the stored value is the identity. -/
theorem updateVal_eq_self {α : Type} (l : List (ℕ × α)) (k : ℕ) (f : α → α)
    (h : ∀ kv ∈ l, kv.1 = k → f kv.2 = kv.2) : updateVal l k f = l := by
  have hcongr : ∀ kv ∈ l, (if kv.1 = k then (kv.1, f kv.2) else kv) = id kv := by
    intro kv hkv
    by_cases hk : kv.1 = k
    · rw [if_pos hk, h kv hkv hk, id]
    · rw [if_neg hk, id]
  rw [updateVal, List.map_congr_left hcongr, List.map_id]

/-- Two updates at the same key compose. -/
theorem updateVal_updateVal_self {α : Type} (l : List (ℕ × α)) (k : ℕ) (f g : α → α) :
    updateVal (updateVal l k f) k g = updateVal l k (fun a => g (f a)) := by
  simp only [updateVal, List.map_map]
  apply List.map_congr_left
  intro kv _
  by_cases hk : kv.1 = k
  · simp [Function.comp, hk]
  · simp [Function.comp, hk]

/-- Updates at distinct keys commute. -/
theorem updateVal_comm {α : Type} (l : List (ℕ × α)) (k k' : ℕ) (f g : α → α)
    (h : k ≠ k') :
    updateVal (updateVal l k f) k' g = updateVal (updateVal l k' g) k f := by
  simp only [updateVal, List.map_map]
  apply List.map_congr_left
  intro kv _
  by_cases hk : kv.1 = k
  · simp [Function.comp, hk, h]
  · by_cases hk' : kv.1 = k'
    · simp [Function.comp, hk, hk', h, Ne.symm h]
    · simp [Function.comp, hk, hk']

/-- Lookup through a value-shaping map. -/
theorem lookup_map_shape {α β : Type} (l : List (ℕ × α)) (k : ℕ) (sh : α → β) :
    lookup (l.map (fun kv => (kv.1, sh kv.2))) k = (lookup l k).map sh := by
  induction l with
  | nil => rfl
  | cons kv t ih =>
      rw [List.map_cons]
      by_cases hk : kv.1 = k
      · rw [lookup_cons_self _ _ _ hk, lookup_cons_self _ _ _ (by simpa using hk)]
        rfl
      · rw [lookup_cons_ne _ _ _ hk, lookup_cons_ne _ _ _ (by simpa using hk), ih]

end NCModel

namespace NCModel

/-- Detach one `FlowIndex` of a flow from a queue record (the per-hop
body of `delFlow`). -/
def eraseFlow (fid : ℕ) (q : Queue) : Queue :=
  { q with flows := q.flows.eraseP (fun e => e.1 == fid) }

/-- A fold of same-function in-place updates acts pointwise, iterating
the function as many times as the key occurs in the hop list. -/
theorem foldl_updateVal_iterate (er : Queue → Queue) :
    ∀ (hs : List ℕ) (qs : List (ℕ × Queue)),
      hs.foldl (fun a h2 => updateVal a h2 er) qs
        = qs.map (fun kv => (kv.1, er^[hs.count kv.1] kv.2)) := by
  intro hs
  induction hs with
  | nil =>
      intro qs
      simp [List.count_nil]
  | cons h2 hs ih =>
      intro qs
      rw [List.foldl_cons, ih]
      simp only [updateVal, List.map_map]
      apply List.map_congr_left
      intro kv _
      by_cases hk : kv.1 = h2
      · simp [Function.comp, hk, List.count_cons, Function.iterate_succ_apply]
      · simp [Function.comp, hk, List.count_cons]

/-- `eraseFlow` iterates on the `flows` field only. -/
theorem eraseFlow_iterate (fid : ℕ) :
    ∀ (k : ℕ) (q : Queue),
      (eraseFlow fid)^[k] q =
        { q with flows := (fun l => l.eraseP (fun e => e.1 == fid))^[k] q.flows } := by
  intro k
  induction k with
  | zero => intro q; rfl
  | succ k ih =>
      intro q
      rw [Function.iterate_succ_apply, Function.iterate_succ_apply, ih]
      rfl

/-- Erasing the first match skips over a match-free suffix. -/
theorem eraseP_append_no_match {α : Type} (p : α → Bool) (l2 : List α)
    (h : ∀ x ∈ l2, ¬ p x = true) :
    ∀ l1 : List α, (l1 ++ l2).eraseP p = l1.eraseP p ++ l2 := by
  intro l1
  induction l1 with
  | nil =>
      simp only [List.nil_append]
      rw [List.eraseP_of_forall_not h]
      rfl
  | cons a l1 ih =>
      by_cases ha : p a
      · simp [List.eraseP_cons, ha]
      · simp [List.eraseP_cons, ha, ih]

/-- Iterated first-match erasure passes over a match-free suffix. -/
theorem eraseP_iterate_no_match (fid : ℕ) (extra : List (ℕ × ℕ))
    (hextra : ∀ e ∈ extra, e.1 ≠ fid) :
    ∀ (k : ℕ) (l : List (ℕ × ℕ)),
      (fun l2 => l2.eraseP (fun e => e.1 == fid))^[k] (l ++ extra)
        = (fun l2 => l2.eraseP (fun e => e.1 == fid))^[k] l ++ extra := by
  intro k
  induction k with
  | zero => intro l; rfl
  | succ k ih =>
      intro l
      rw [Function.iterate_succ_apply, Function.iterate_succ_apply]
      have hstep : (l ++ extra).eraseP (fun e => e.1 == fid)
          = l.eraseP (fun e => e.1 == fid) ++ extra :=
        eraseP_append_no_match _ extra (by intro x hx; simpa using hextra x hx) l
      show (fun l2 => l2.eraseP (fun e => e.1 == fid))^[k]
            ((l ++ extra).eraseP (fun e => e.1 == fid))
          = (fun l2 => l2.eraseP (fun e => e.1 == fid))^[k]
            (l.eraseP (fun e => e.1 == fid)) ++ extra
      rw [hstep]
      exact ih _

/-- Erasing first matches as many times as there are matches, appended
after a match-free prefix, recovers the prefix. -/
theorem eraseP_iterate_all (fid : ℕ) :
    ∀ (extra : List (ℕ × ℕ)) (l : List (ℕ × ℕ)),
      (∀ e ∈ l, e.1 ≠ fid) → (∀ e ∈ extra, e.1 = fid) →
      (fun l2 => l2.eraseP (fun e => e.1 == fid))^[extra.length] (l ++ extra) = l := by
  intro extra
  induction extra with
  | nil => intro l _ _; simp
  | cons e ex ih =>
      intro l hl hex
      rw [List.length_cons, Function.iterate_succ_apply]
      have hstep : (l ++ e :: ex).eraseP (fun e2 => e2.1 == fid) = l ++ ex := by
        rw [List.eraseP_append_right _ (by intro b hb; simpa using hl b hb)]
        simp [List.eraseP_cons, hex e (by simp)]
      show (fun l2 => l2.eraseP (fun e2 => e2.1 == fid))^[ex.length]
            ((l ++ e :: ex).eraseP (fun e2 => e2.1 == fid)) = l
      rw [hstep]
      exact ih l hl (fun e2 he2 => hex e2 (by simp [he2]))

/-- The `FlowIndex` pairs that registering a flow appends to one queue:
one pair per hop of the path that lands on that queue. -/
def hopPairs (fid : ℕ) : List ℕ → ℕ → ℕ → List (ℕ × ℕ)
  | [], _, _ => []
  | qid :: rest, idx, q =>
      (if qid = q then [(fid, idx)] else []) ++ hopPairs fid rest (idx + 1) q

/-- Every appended pair carries the new flow's id. -/
theorem hopPairs_fst (fid : ℕ) :
    ∀ (qids : List ℕ) (idx q : ℕ), ∀ e ∈ hopPairs fid qids idx q, e.1 = fid := by
  intro qids
  induction qids with
  | nil => intro idx q e he; simp [hopPairs] at he
  | cons qid rest ih =>
      intro idx q e he
      rw [hopPairs] at he
      rcases List.mem_append.mp he with h1 | h2
      · by_cases hq : qid = q
        · simp only [if_pos hq, List.mem_singleton] at h1
          rw [h1]
        · simp [hq] at h1
      · exact ih _ _ e h2

/-- One pair lands on a queue per occurrence of it on the path. -/
theorem hopPairs_length (fid : ℕ) :
    ∀ (qids : List ℕ) (idx q : ℕ), (hopPairs fid qids idx q).length = qids.count q := by
  intro qids
  induction qids with
  | nil => intro idx q; simp [hopPairs]
  | cons qid rest ih =>
      intro idx q
      rw [hopPairs, List.length_append, ih, List.count_cons]
      by_cases hq : qid = q
      · simp [hq]
        omega
      · simp [hq, Ne.symm hq]

/-- Pointwise characterisation of `addFlowToQueues`. -/
theorem addFlowToQueues_pointwise (fid : ℕ) :
    ∀ (qids : List ℕ) (qs : List (ℕ × Queue)) (idx : ℕ),
      addFlowToQueues fid qs qids idx
        = qs.map (fun kv =>
            (kv.1, { kv.2 with flows := kv.2.flows ++ hopPairs fid qids idx kv.1 })) := by
  intro qids
  induction qids with
  | nil =>
      intro qs idx
      rw [addFlowToQueues]
      simp [hopPairs]
  | cons qid rest ih =>
      intro qs idx
      rw [addFlowToQueues, ih]
      simp only [updateVal, List.map_map]
      apply List.map_congr_left
      intro kv _
      by_cases hq : kv.1 = qid
      · simp [Function.comp, hopPairs, hq, List.append_assoc]
      · simp [Function.comp, hopPairs, hq, (show ¬ qid = kv.1 by omega)]

end NCModel

namespace NCModel

/-- Resolved queue path of a flow info against a registry. -/
def qidsOf (s : State) (fi2 : FlowInfo) : List ℕ :=
  (fi2.queues.getD []).map (fun qn => getQueueIdByName s qn)

/-- Append a new flow id to a client's list. -/
def pushFlowId (fid : ℕ) (c : Client) : Client :=
  { c with flowIds := c.flowIds ++ [fid] }

/-- Epsilon assigned by `SNC::initFlow`, read back from the updated
client map. -/
def epsOf (cl : List (ℕ × Client)) (cid : ℕ) : ℚ :=
  match lookup cl cid with
  | some c => (1 - c.SLOpercentile / 100) / (c.flowIds.length : ℚ)
  | none => 0

/-- The flow record `initFlow` registers. -/
def newFlowRec (s : State) (fi2 : FlowInfo) (cid : ℕ) : Flow :=
  { flowId := s.nextFlowId, name := fi2.name.getD "", clientId := cid,
    queueIds := qidsOf s fi2, priority := fi2.priority.getD 1, latency := 0,
    epsilon := epsOf (updateVal s.clients cid (pushFlowId s.nextFlowId)) cid }

/-- Constructor form of `initFlow`. -/
theorem initFlow_eq (s : State) (fi2 : FlowInfo) (cid : ℕ) :
    initFlow s fi2 cid =
      ⟨s.flows ++ [(s.nextFlowId, newFlowRec s fi2 cid)],
       updateVal s.clients cid (pushFlowId s.nextFlowId),
       addFlowToQueues s.nextFlowId s.queues (qidsOf s fi2) 0,
       s.nextFlowId + 1, s.nextClientId, s.nextQueueId⟩ := rfl

/-- Constructor form of `initClient`. -/
theorem initClient_eq (s : State) (ci : ClientInfo) :
    initClient s ci =
      ⟨s.flows,
       s.clients ++ [(s.nextClientId,
         ⟨s.nextClientId, ci.name.getD "", [], ci.SLO.getD 0,
          ci.SLOpercentile.getD (999/10), 0⟩)],
       s.queues, s.nextFlowId, s.nextClientId + 1, s.nextQueueId⟩ := rfl

/-- `addClient` is the flow-registration fold over `initClient`. -/
theorem addClient_eq (s : State) (ci : ClientInfo) :
    addClient s ci =
      (ci.flows.getD []).foldl (fun st fi2 => initFlow st fi2 s.nextClientId)
        (initClient s ci) := rfl

/-- `delFlow` at an unknown id is the identity. -/
theorem delFlow_none (s : State) (fid : ℕ) (h : lookup s.flows fid = none) :
    delFlow s fid = s := by
  unfold delFlow
  rw [h]

/-- Constructor form of `delFlow` at a registered flow. -/
theorem delFlow_some (s : State) (fid : ℕ) (f : Flow)
    (h : lookup s.flows fid = some f) :
    delFlow s fid =
      ⟨eraseKey s.flows fid, s.clients,
       f.queueIds.foldl (fun qs qid => updateVal qs qid (eraseFlow fid)) s.queues,
       s.nextFlowId, s.nextClientId, s.nextQueueId⟩ := by
  unfold delFlow
  rw [h]
  rfl

/-- `delClient` at an unknown id is the identity. -/
theorem delClient_none (s : State) (cid : ℕ) (h : lookup s.clients cid = none) :
    delClient s cid = s := by
  unfold delClient
  rw [h]

/-- `delClient` at a registered client: delete its flows, then erase the
record. -/
theorem delClient_some (s : State) (cid : ℕ) (c : Client)
    (h : lookup s.clients cid = some c) :
    delClient s cid =
      { c.flowIds.foldl delFlow s with
          clients := eraseKey (c.flowIds.foldl delFlow s).clients cid } := by
  unfold delClient
  rw [h]

/-- `delFlow` leaves clients and all counters unchanged. -/
theorem delFlow_meta (s : State) (fid : ℕ) :
    (delFlow s fid).clients = s.clients ∧
    (delFlow s fid).nextFlowId = s.nextFlowId ∧
    (delFlow s fid).nextClientId = s.nextClientId ∧
    (delFlow s fid).nextQueueId = s.nextQueueId := by
  cases h : lookup s.flows fid with
  | none => rw [delFlow_none s fid h]; exact ⟨rfl, rfl, rfl, rfl⟩
  | some f => rw [delFlow_some s fid f h]; exact ⟨rfl, rfl, rfl, rfl⟩

/-- Folding `delFlow` leaves clients and counters unchanged. -/
theorem delFlow_fold_meta (fids : List ℕ) : ∀ (s : State),
    (fids.foldl delFlow s).clients = s.clients ∧
    (fids.foldl delFlow s).nextFlowId = s.nextFlowId ∧
    (fids.foldl delFlow s).nextClientId = s.nextClientId ∧
    (fids.foldl delFlow s).nextQueueId = s.nextQueueId := by
  induction fids with
  | nil => intro s; exact ⟨rfl, rfl, rfl, rfl⟩
  | cons fid rest ih =>
      intro s
      rw [List.foldl_cons]
      rcases ih (delFlow s fid) with ⟨h1, h2, h3, h4⟩
      rcases delFlow_meta s fid with ⟨g1, g2, g3, g4⟩
      exact ⟨h1.trans g1, h2.trans g2, h3.trans g3, h4.trans g4⟩

/-- `delClient` leaves the counters unchanged. -/
theorem delClient_counters (s : State) (cid : ℕ) :
    (delClient s cid).nextFlowId = s.nextFlowId ∧
    (delClient s cid).nextClientId = s.nextClientId ∧
    (delClient s cid).nextQueueId = s.nextQueueId := by
  cases h : lookup s.clients cid with
  | none => rw [delClient_none s cid h]; exact ⟨rfl, rfl, rfl⟩
  | some c =>
      rw [delClient_some s cid c h]
      rcases delFlow_fold_meta c.flowIds s with ⟨_, h2, h3, h4⟩
      exact ⟨h2, h3, h4⟩

/-- Key/name view of the queue map (all that name resolution reads). -/
def qNames (qs : List (ℕ × Queue)) : List (ℕ × String) :=
  qs.map (fun kv => (kv.1, kv.2.name))

/-- Queue-name resolution only depends on the key/name view. -/
theorem getQueueIdByName_congr (s s' : State) (h : qNames s.queues = qNames s'.queues)
    (qn : String) : getQueueIdByName s qn = getQueueIdByName s' qn := by
  unfold getQueueIdByName
  suffices hsuf : ∀ (l l' : List (ℕ × Queue)), qNames l = qNames l' →
      (l.find? (fun kv => kv.2.name == qn)).map Prod.fst
        = (l'.find? (fun kv => kv.2.name == qn)).map Prod.fst by
    rw [hsuf s.queues s'.queues h]
  intro l
  induction l with
  | nil =>
      intro l' h2
      have hnil : l' = [] := by
        cases l' with
        | nil => rfl
        | cons kv t => simp [qNames] at h2
      rw [hnil]
  | cons kv t ih =>
      intro l' h2
      cases l' with
      | nil => simp [qNames] at h2
      | cons kv' t' =>
          simp only [qNames, List.map_cons, List.cons.injEq, Prod.mk.injEq] at h2
          obtain ⟨⟨hk, hn⟩, ht⟩ := h2
          by_cases hmatch : kv.2.name = qn
          · rw [List.find?_cons_of_pos _ (by simp [hmatch]),
              List.find?_cons_of_pos _ (by simp [← hn, hmatch])]
            simp [hk]
          · rw [List.find?_cons_of_neg _ (by simp [hmatch]),
              List.find?_cons_of_neg _ (by simp [← hn, hmatch])]
            exact ih t' ht

/-- Path resolution only depends on the key/name view. -/
theorem qidsOf_congr (s s' : State) (h : qNames s.queues = qNames s'.queues)
    (fi2 : FlowInfo) : qidsOf s fi2 = qidsOf s' fi2 := by
  unfold qidsOf
  apply List.map_congr_left
  intro qn _
  exact getQueueIdByName_congr s s' h qn

/-- Detaching flow indices never changes queue keys or names. -/
theorem qNames_foldl_eraseFlow (fid : ℕ) (hs : List ℕ) (qs : List (ℕ × Queue)) :
    qNames (hs.foldl (fun a qid => updateVal a qid (eraseFlow fid)) qs) = qNames qs := by
  rw [foldl_updateVal_iterate]
  unfold qNames
  rw [List.map_map]
  apply List.map_congr_left
  intro kv _
  simp [Function.comp, eraseFlow_iterate]

/-- Appending a flow's hops then detaching them along the same path
restores the queue map (no pair of the flow was present before). -/
theorem addFlow_erase_roundtrip (fid : ℕ) (qs : List (ℕ × Queue)) (qids : List ℕ)
    (hqs : ∀ kv ∈ qs, ∀ e ∈ kv.2.flows, e.1 ≠ fid) :
    qids.foldl (fun a qid => updateVal a qid (eraseFlow fid))
        (addFlowToQueues fid qs qids 0) = qs := by
  rw [addFlowToQueues_pointwise, foldl_updateVal_iterate, List.map_map]
  have hpt : ∀ kv ∈ qs,
      ((fun kv => (kv.1, (eraseFlow fid)^[qids.count kv.1] kv.2)) ∘
        (fun kv => (kv.1, { kv.2 with flows := kv.2.flows ++ hopPairs fid qids 0 kv.1 })))
        kv = id kv := by
    intro kv hkv
    have hlen : qids.count kv.1 = (hopPairs fid qids 0 kv.1).length :=
      (hopPairs_length fid qids 0 kv.1).symm
    have hrec : (eraseFlow fid)^[(hopPairs fid qids 0 kv.1).length]
        { kv.2 with flows := kv.2.flows ++ hopPairs fid qids 0 kv.1 } = kv.2 := by
      rw [eraseFlow_iterate]
      show ({ kv.2 with
          flows := (fun l => l.eraseP (fun e => e.1 == fid))^[(hopPairs fid qids 0
            kv.1).length] (kv.2.flows ++ hopPairs fid qids 0 kv.1) } : Queue) = kv.2
      rw [eraseP_iterate_all fid (hopPairs fid qids 0 kv.1) kv.2.flows
        (fun e he => hqs kv hkv e he) (hopPairs_fst fid qids 0 kv.1)]
    show (kv.1, (eraseFlow fid)^[qids.count kv.1]
        { kv.2 with flows := kv.2.flows ++ hopPairs fid qids 0 kv.1 }) = kv
    rw [hlen, hrec]
  rw [List.map_congr_left hpt, List.map_id]

/-- Deleting the flow just registered restores the flow and queue maps
(the client's `flowIds` entry remains, as `delClient` erases the whole
record afterwards). -/
theorem delFlow_initFlow_self (t : State) (fi2 : FlowInfo) (n : ℕ)
    (hf : ∀ kv ∈ t.flows, kv.1 < t.nextFlowId)
    (hq : ∀ kv ∈ t.queues, ∀ e ∈ kv.2.flows, e.1 < t.nextFlowId) :
    delFlow (initFlow t fi2 n) t.nextFlowId =
      ⟨t.flows, updateVal t.clients n (pushFlowId t.nextFlowId), t.queues,
       t.nextFlowId + 1, t.nextClientId, t.nextQueueId⟩ := by
  have hlf0 : lookup t.flows t.nextFlowId = none :=
    lookup_eq_none_of_bound t.flows t.nextFlowId hf
  have hlk : lookup (initFlow t fi2 n).flows t.nextFlowId
      = some (newFlowRec t fi2 n) := by
    rw [initFlow_eq]
    show lookup (t.flows ++ [(t.nextFlowId, newFlowRec t fi2 n)]) t.nextFlowId
        = some (newFlowRec t fi2 n)
    rw [lookup_append, hlf0, lookup_cons_self _ _ _ rfl]
    rfl
  rw [delFlow_some _ _ _ hlk]
  rw [State.mk.injEq]
  refine ⟨?_, rfl, ?_, rfl, rfl, rfl⟩
  · show eraseKey (t.flows ++ [(t.nextFlowId, newFlowRec t fi2 n)]) t.nextFlowId
        = t.flows
    rw [eraseKey_append,
      eraseKey_eq_self t.flows _ (fun kv hkv => Nat.ne_of_lt (hf kv hkv)),
      eraseKey_cons_self _ _ _ rfl]
    simp [eraseKey]
  · show (qidsOf t fi2).foldl (fun qs qid => updateVal qs qid (eraseFlow t.nextFlowId))
        (addFlowToQueues t.nextFlowId t.queues (qidsOf t fi2) 0) = t.queues
    exact addFlow_erase_roundtrip t.nextFlowId t.queues (qidsOf t fi2)
      (fun kv hkv e he => Nat.ne_of_lt (hq kv hkv e he))

end NCModel

namespace NCModel

/-- Iterated detaching passes over appended pairs of another flow. -/
theorem eraseFlow_iterate_append_no_match (fid : ℕ) (k : ℕ) (q : Queue)
    (extra : List (ℕ × ℕ)) (hextra : ∀ e ∈ extra, e.1 ≠ fid) :
    (eraseFlow fid)^[k] { q with flows := q.flows ++ extra }
      = { (eraseFlow fid)^[k] q with flows := ((eraseFlow fid)^[k] q).flows ++ extra } := by
  simp only [eraseFlow_iterate]
  show ({ q with flows := ((fun l => l.eraseP (fun e => e.1 == fid))^[k]
      (q.flows ++ extra)) } : Queue)
    = { q with flows := ((fun l => l.eraseP (fun e => e.1 == fid))^[k] q.flows ++ extra) }
  rw [eraseP_iterate_no_match fid extra hextra k q.flows]

/-- Detaching one flow's indices commutes with registering another flow's
indices. -/
theorem erase_fold_addFlow_comm (fid nf : ℕ) (hne : fid ≠ nf) (hs qids : List ℕ)
    (qs : List (ℕ × Queue)) :
    hs.foldl (fun a qid => updateVal a qid (eraseFlow fid))
        (addFlowToQueues nf qs qids 0)
      = addFlowToQueues nf
          (hs.foldl (fun a qid => updateVal a qid (eraseFlow fid)) qs) qids 0 := by
  rw [foldl_updateVal_iterate, foldl_updateVal_iterate, addFlowToQueues_pointwise,
    addFlowToQueues_pointwise, List.map_map, List.map_map]
  apply List.map_congr_left
  intro kv _
  show (kv.1, (eraseFlow fid)^[hs.count kv.1]
      { kv.2 with flows := kv.2.flows ++ hopPairs nf qids 0 kv.1 })
    = (kv.1, { (eraseFlow fid)^[hs.count kv.1] kv.2 with
        flows := ((eraseFlow fid)^[hs.count kv.1] kv.2).flows ++ hopPairs nf qids 0 kv.1 })
  rw [eraseFlow_iterate_append_no_match fid (hs.count kv.1) kv.2
    (hopPairs nf qids 0 kv.1)
    (fun e he => by rw [hopPairs_fst nf qids 0 kv.1 e he]; omega)]

/-- Deleting an old flow commutes with registering a new one. -/
theorem delFlow_initFlow_comm (t : State) (fi2 : FlowInfo) (n fid : ℕ)
    (hfid : fid < t.nextFlowId) :
    delFlow (initFlow t fi2 n) fid = initFlow (delFlow t fid) fi2 n := by
  cases hlf : lookup t.flows fid with
  | none =>
      rw [delFlow_none t fid hlf]
      apply delFlow_none
      rw [initFlow_eq]
      show lookup (t.flows ++ [(t.nextFlowId, newFlowRec t fi2 n)]) fid = none
      rw [lookup_append, hlf, lookup_cons_ne _ _ _ (show t.nextFlowId ≠ fid by omega)]
      rfl
  | some f =>
      have hlk : lookup (initFlow t fi2 n).flows fid = some f := by
        rw [initFlow_eq]
        show lookup (t.flows ++ [(t.nextFlowId, newFlowRec t fi2 n)]) fid = some f
        rw [lookup_append, hlf]
        rfl
      have hD : (delFlow t fid).queues
          = f.queueIds.foldl (fun a qid => updateVal a qid (eraseFlow fid)) t.queues := by
        rw [delFlow_some t fid f hlf]
      have hDf : (delFlow t fid).flows = eraseKey t.flows fid := by
        rw [delFlow_some t fid f hlf]
      have hDc : (delFlow t fid).clients = t.clients := (delFlow_meta t fid).1
      have hDn : (delFlow t fid).nextFlowId = t.nextFlowId := (delFlow_meta t fid).2.1
      have hDnc : (delFlow t fid).nextClientId = t.nextClientId :=
        (delFlow_meta t fid).2.2.1
      have hDnq : (delFlow t fid).nextQueueId = t.nextQueueId :=
        (delFlow_meta t fid).2.2.2
      have hqids : qidsOf (delFlow t fid) fi2 = qidsOf t fi2 :=
        qidsOf_congr _ _
          (by rw [hD]; exact qNames_foldl_eraseFlow fid f.queueIds t.queues) fi2
      have hrec : newFlowRec (delFlow t fid) fi2 n = newFlowRec t fi2 n := by
        simp only [newFlowRec, hqids, hDc, hDn]
      rw [initFlow_eq (delFlow t fid) fi2 n, hqids, hrec, hD, hDf, hDc, hDn, hDnc, hDnq]
      rw [delFlow_some _ _ _ hlk, initFlow_eq t fi2 n]
      dsimp only
      rw [State.mk.injEq]
      refine ⟨?_, rfl, ?_, rfl, rfl, rfl⟩
      · rw [eraseKey_append, eraseKey_cons_ne _ _ _ (show t.nextFlowId ≠ fid by omega)]
        simp [eraseKey]
      · exact erase_fold_addFlow_comm fid t.nextFlowId (by omega) f.queueIds
          (qidsOf t fi2) t.queues

end NCModel

namespace NCModel

/-- Client map after the flow-registration fold: the new flow ids
`nf, nf+1, …` are pushed onto client `n`'s list one by one. -/
def pushIds (n : ℕ) : List (ℕ × Client) → ℕ → ℕ → List (ℕ × Client)
  | cl, _, 0 => cl
  | cl, nf, k + 1 => pushIds n (updateVal cl n (pushFlowId nf)) (nf + 1) k

/-- Zero-step equation of `pushIds`. -/
theorem pushIds_zero (n : ℕ) (cl : List (ℕ × Client)) (nf : ℕ) :
    pushIds n cl nf 0 = cl := rfl

/-- Step equation of `pushIds`. -/
theorem pushIds_succ (n : ℕ) (cl : List (ℕ × Client)) (nf k : ℕ) :
    pushIds n cl nf (k + 1) = pushIds n (updateVal cl n (pushFlowId nf)) (nf + 1) k := rfl

/-- An arithmetic-progression id block, split at its head. -/
theorem range_map_add_succ (nf k : ℕ) :
    (List.range (k + 1)).map (fun i => nf + i)
      = nf :: (List.range k).map (fun i => nf + 1 + i) := by
  rw [List.range_succ_eq_map, List.map_cons, List.map_map]
  refine List.cons_eq_cons.mpr ⟨by simp, ?_⟩
  apply List.map_congr_left
  intro i _
  simp [Function.comp]
  omega

/-- Lookup of the owner in the pushed client map. -/
theorem lookup_pushIds (n : ℕ) : ∀ (k : ℕ) (cl : List (ℕ × Client)) (nf : ℕ),
    lookup (pushIds n cl nf k) n
      = (lookup cl n).map (fun c => { c with
          flowIds := c.flowIds ++ (List.range k).map (fun i => nf + i) }) := by
  intro k
  induction k with
  | zero =>
      intro cl nf
      rw [pushIds_zero]
      cases h : lookup cl n with
      | none => rfl
      | some c => simp
  | succ k ih =>
      intro cl nf
      rw [pushIds_succ, ih, lookup_updateVal_self]
      cases h : lookup cl n with
      | none => rfl
      | some c => simp [pushFlowId, range_map_add_succ, List.append_assoc]

/-- Lookup of another client is unaffected by the pushes. -/
theorem lookup_pushIds_ne (n m : ℕ) (hm : m ≠ n) :
    ∀ (k : ℕ) (cl : List (ℕ × Client)) (nf : ℕ),
      lookup (pushIds n cl nf k) m = lookup cl m := by
  intro k
  induction k with
  | zero => intro cl nf; rw [pushIds_zero]
  | succ k ih =>
      intro cl nf
      rw [pushIds_succ, ih, lookup_updateVal_ne _ _ _ _ hm]

/-- Metadata of the flow-registration fold. -/
theorem initFlow_fold_meta2 (n : ℕ) : ∀ (fis : List FlowInfo) (u : State),
    (fis.foldl (fun st fi2 => initFlow st fi2 n) u).clients
        = pushIds n u.clients u.nextFlowId fis.length ∧
    (fis.foldl (fun st fi2 => initFlow st fi2 n) u).nextFlowId
        = u.nextFlowId + fis.length ∧
    (fis.foldl (fun st fi2 => initFlow st fi2 n) u).nextClientId = u.nextClientId ∧
    (fis.foldl (fun st fi2 => initFlow st fi2 n) u).nextQueueId = u.nextQueueId := by
  intro fis
  induction fis with
  | nil => intro u; exact ⟨rfl, rfl, rfl, rfl⟩
  | cons fi2 rest ih =>
      intro u
      rw [List.foldl_cons]
      rcases ih (initFlow u fi2 n) with ⟨h1, h2, h3, h4⟩
      refine ⟨?_, ?_, h3, h4⟩
      · rw [h1, List.length_cons, pushIds_succ]
        rfl
      · rw [h2, List.length_cons, initFlow_nextFlowId]
        omega

/-- One deletion commutes past a whole flow-registration fold. -/
theorem delFlow_initFlow_fold_comm (n : ℕ) :
    ∀ (fis : List FlowInfo) (t : State) (fid : ℕ), fid < t.nextFlowId →
      delFlow (fis.foldl (fun st fi2 => initFlow st fi2 n) t) fid
        = fis.foldl (fun st fi2 => initFlow st fi2 n) (delFlow t fid) := by
  intro fis
  induction fis with
  | nil => intro t fid _; rfl
  | cons fi2 rest ihf =>
      intro t fid hb
      rw [List.foldl_cons, List.foldl_cons,
        ihf (initFlow t fi2 n) fid (by rw [initFlow_nextFlowId]; omega),
        delFlow_initFlow_comm t fi2 n fid hb]

/-- Rollback of a whole flow-registration fold: deleting the new flow ids
in ascending order restores the flow and queue maps; only the owning
client's `flowIds` (about to be erased wholesale) and the flow counter
keep the additions. -/
theorem delFlow_fold_roundtrip (n : ℕ) :
    ∀ (fis : List FlowInfo) (u : State),
      (∀ kv ∈ u.flows, kv.1 < u.nextFlowId) →
      (∀ kv ∈ u.queues, ∀ e ∈ kv.2.flows, e.1 < u.nextFlowId) →
      ((List.range fis.length).map (fun i => u.nextFlowId + i)).foldl delFlow
          (fis.foldl (fun st fi2 => initFlow st fi2 n) u)
        = ⟨u.flows, pushIds n u.clients u.nextFlowId fis.length, u.queues,
           u.nextFlowId + fis.length, u.nextClientId, u.nextQueueId⟩ := by
  intro fis
  induction fis with
  | nil =>
      intro u _ _
      cases u
      rfl
  | cons fi2 rest ih =>
      intro u hf hq
      rw [List.length_cons, range_map_add_succ, List.foldl_cons, List.foldl_cons]
      have hstep : delFlow (rest.foldl (fun st fi2 => initFlow st fi2 n)
            (initFlow u fi2 n)) u.nextFlowId
          = rest.foldl (fun st fi2 => initFlow st fi2 n)
              (delFlow (initFlow u fi2 n) u.nextFlowId) := by
        apply delFlow_initFlow_fold_comm
        rw [initFlow_nextFlowId]
        omega
      rw [hstep, delFlow_initFlow_self u fi2 n hf hq]
      have hih := ih ⟨u.flows, updateVal u.clients n (pushFlowId u.nextFlowId), u.queues,
          u.nextFlowId + 1, u.nextClientId, u.nextQueueId⟩
        (by intro kv hkv; have := hf kv hkv; dsimp only; omega)
        (by intro kv hkv e he; have := hq kv hkv e he; dsimp only; omega)
      dsimp only at hih
      rw [hih, State.mk.injEq]
      refine ⟨rfl, ?_, rfl, ?_, rfl, rfl⟩
      · rw [pushIds_succ]
      · omega

end NCModel

namespace NCModel

/-- A block of old-flow deletions commutes past one new registration. -/
theorem delFlow_fold_initFlow_comm (fids : List ℕ) :
    ∀ (t : State) (fi2 : FlowInfo) (m : ℕ), (∀ fid ∈ fids, fid < t.nextFlowId) →
      fids.foldl delFlow (initFlow t fi2 m) = initFlow (fids.foldl delFlow t) fi2 m := by
  induction fids with
  | nil => intro t fi2 m _; rfl
  | cons fid rest ihf =>
      intro t fi2 m hb
      rw [List.foldl_cons, List.foldl_cons,
        delFlow_initFlow_comm t fi2 m fid (hb fid (by simp))]
      exact ihf (delFlow t fid) fi2 m (fun f2 h2 => by
        rw [(delFlow_meta t fid).2.1]
        exact hb f2 (by simp [h2]))

/-- Flow deletion commutes with client creation. -/
theorem delFlow_initClient_comm (t : State) (ci : ClientInfo) (fid : ℕ) :
    delFlow (initClient t ci) fid = initClient (delFlow t fid) ci := by
  cases hlf : lookup t.flows fid with
  | none =>
      rw [delFlow_none t fid hlf]
      apply delFlow_none
      exact hlf
  | some f =>
      rw [delFlow_some t fid f hlf, delFlow_some (initClient t ci) fid f hlf]
      rfl

/-- A block of flow deletions commutes with client creation. -/
theorem delFlow_fold_initClient_comm (fids : List ℕ) : ∀ (t : State) (ci : ClientInfo),
    fids.foldl delFlow (initClient t ci) = initClient (fids.foldl delFlow t) ci := by
  induction fids with
  | nil => intro t ci; rfl
  | cons fid rest ih =>
      intro t ci
      rw [List.foldl_cons, List.foldl_cons, delFlow_initClient_comm t ci fid, ih]

/-- Client creation leaves old client lookups unchanged. -/
theorem lookup_initClient_clients_ne (t : State) (ci : ClientInfo) (n : ℕ)
    (hn : n ≠ t.nextClientId) :
    lookup (initClient t ci).clients n = lookup t.clients n := by
  rw [initClient_eq]
  show lookup (t.clients ++ [(t.nextClientId, _)]) n = lookup t.clients n
  rw [lookup_append, lookup_cons_ne _ _ _ (show t.nextClientId ≠ n by omega)]
  cases h : lookup t.clients n with
  | none => rfl
  | some c => rfl

/-- The epsilon read-back ignores erased foreign clients. -/
theorem epsOf_eraseKey_ne (cl : List (ℕ × Client)) (m n : ℕ) (h : m ≠ n)
    (f : Client → Client) :
    epsOf (updateVal (eraseKey cl n) m f) m = epsOf (updateVal cl m f) m := by
  unfold epsOf
  rw [lookup_updateVal_self, lookup_updateVal_self, lookup_eraseKey_ne cl n m h]

/-- Deleting an old client commutes with creating a new one. -/
theorem delClient_initClient_comm (t : State) (ci : ClientInfo) (n : ℕ)
    (hn : n ≠ t.nextClientId) :
    delClient (initClient t ci) n = initClient (delClient t n) ci := by
  cases hlc : lookup t.clients n with
  | none =>
      rw [delClient_none t n hlc]
      apply delClient_none
      rw [lookup_initClient_clients_ne t ci n hn, hlc]
  | some c =>
      have hlk : lookup (initClient t ci).clients n = some c := by
        rw [lookup_initClient_clients_ne t ci n hn, hlc]
      have hYn : (c.flowIds.foldl delFlow t).nextClientId = t.nextClientId :=
        (delFlow_fold_meta c.flowIds t).2.2.1
      rw [delClient_some _ _ _ hlk, delClient_some t n c hlc,
        delFlow_fold_initClient_comm, initClient_eq, initClient_eq]
      dsimp only
      rw [State.mk.injEq]
      refine ⟨rfl, ?_, rfl, rfl, rfl, rfl⟩
      rw [eraseKey_append,
        eraseKey_cons_ne _ _ _
          (show (c.flowIds.foldl delFlow t).nextClientId ≠ n by rw [hYn]; omega)]
      simp [eraseKey]

/-- Deleting an old client commutes with registering a flow of the new
one (the old client's flows all predate the new flow). -/
theorem delClient_initFlow_comm (t : State) (fi2 : FlowInfo) (m n : ℕ)
    (hnm : n ≠ m)
    (hflow : ∀ c, lookup t.clients n = some c → ∀ fid ∈ c.flowIds, fid < t.nextFlowId) :
    delClient (initFlow t fi2 m) n = initFlow (delClient t n) fi2 m := by
  cases hlc : lookup t.clients n with
  | none =>
      rw [delClient_none t n hlc]
      apply delClient_none
      rw [initFlow_clients, lookup_updateVal_ne _ _ _ _ hnm, hlc]
  | some c =>
      have hlk : lookup (initFlow t fi2 m).clients n = some c := by
        rw [initFlow_clients, lookup_updateVal_ne _ _ _ _ hnm, hlc]
      have hcomm : c.flowIds.foldl delFlow (initFlow t fi2 m)
          = initFlow (c.flowIds.foldl delFlow t) fi2 m :=
        delFlow_fold_initFlow_comm c.flowIds t fi2 m (hflow c hlc)
      have hZq : (delClient t n).queues = (c.flowIds.foldl delFlow t).queues := by
        rw [delClient_some t n c hlc]
      have hZf : (delClient t n).flows = (c.flowIds.foldl delFlow t).flows := by
        rw [delClient_some t n c hlc]
      have hZc : (delClient t n).clients
          = eraseKey (c.flowIds.foldl delFlow t).clients n := by
        rw [delClient_some t n c hlc]
      have hZn : (delClient t n).nextFlowId
          = (c.flowIds.foldl delFlow t).nextFlowId := by
        rw [delClient_some t n c hlc]
      have hZnc : (delClient t n).nextClientId
          = (c.flowIds.foldl delFlow t).nextClientId := by
        rw [delClient_some t n c hlc]
      have hZnq : (delClient t n).nextQueueId
          = (c.flowIds.foldl delFlow t).nextQueueId := by
        rw [delClient_some t n c hlc]
      have hqids : qidsOf (delClient t n) fi2 = qidsOf (c.flowIds.foldl delFlow t) fi2 :=
        qidsOf_congr _ _ (by rw [hZq]) fi2
      have hrec : newFlowRec (delClient t n) fi2 m
          = newFlowRec (c.flowIds.foldl delFlow t) fi2 m := by
        simp only [newFlowRec, hqids, hZn, hZc]
        rw [epsOf_eraseKey_ne _ _ _ (by omega)]
      rw [initFlow_eq (delClient t n) fi2 m, hqids, hrec, hZf, hZc, hZq, hZn, hZnc, hZnq]
      rw [delClient_some _ _ _ hlk, hcomm,
        initFlow_eq (c.flowIds.foldl delFlow t) fi2 m]
      dsimp only
      rw [State.mk.injEq]
      refine ⟨rfl, ?_, rfl, rfl, rfl, rfl⟩
      exact eraseKey_updateVal_ne _ _ _ _ hnm

end NCModel

namespace NCModel

/-- Metadata of `addClient`: counter bumps and the client-map form. -/
theorem addClient_meta (t : State) (ci : ClientInfo) :
    (addClient t ci).nextClientId = t.nextClientId + 1 ∧
    (addClient t ci).nextFlowId = t.nextFlowId + (ci.flows.getD []).length ∧
    (addClient t ci).nextQueueId = t.nextQueueId ∧
    (addClient t ci).clients
      = pushIds t.nextClientId (initClient t ci).clients t.nextFlowId
          (ci.flows.getD []).length := by
  rw [addClient_eq]
  rcases initFlow_fold_meta2 t.nextClientId (ci.flows.getD []) (initClient t ci)
    with ⟨h1, h2, h3, h4⟩
  exact ⟨h3, h2, h4, h1⟩

/-- `addClient` leaves old client lookups unchanged. -/
theorem lookup_addClient_clients_ne (t : State) (ci : ClientInfo) (n : ℕ)
    (hn : n ≠ t.nextClientId) :
    lookup (addClient t ci).clients n = lookup t.clients n := by
  rw [(addClient_meta t ci).2.2.2, lookup_pushIds_ne _ _ (by omega),
    lookup_initClient_clients_ne t ci n hn]

/-- Deleting an old client commutes with adding a new one. -/
theorem delClient_addClient_comm (t : State) (ci : ClientInfo) (n : ℕ)
    (hn : n < t.nextClientId)
    (hflow : ∀ c, lookup t.clients n = some c → ∀ fid ∈ c.flowIds, fid < t.nextFlowId) :
    delClient (addClient t ci) n = addClient (delClient t n) ci := by
  rw [addClient_eq, addClient_eq]
  have hZn : (delClient t n).nextClientId = t.nextClientId :=
    (delClient_counters t n).2.1
  rw [hZn]
  have key : ∀ (fis : List FlowInfo) (u : State),
      (∀ c, lookup u.clients n = some c → ∀ fid ∈ c.flowIds, fid < u.nextFlowId) →
      delClient (fis.foldl (fun st fi2 => initFlow st fi2 t.nextClientId) u) n
        = fis.foldl (fun st fi2 => initFlow st fi2 t.nextClientId) (delClient u n) := by
    intro fis
    induction fis with
    | nil => intro u _; rfl
    | cons fi2 rest ihf =>
        intro u hu
        rw [List.foldl_cons, List.foldl_cons,
          ihf (initFlow u fi2 t.nextClientId) ?inv,
          delClient_initFlow_comm u fi2 t.nextClientId n (by omega) hu]
        case inv =>
          intro c hc fid hfid
          rw [initFlow_clients,
            lookup_updateVal_ne _ _ _ _ (show n ≠ t.nextClientId by omega)] at hc
          rw [initFlow_nextFlowId]
          have := hu c hc fid hfid
          omega
  rw [key (ci.flows.getD []) (initClient t ci) ?invc,
    delClient_initClient_comm t ci n (by omega)]
  case invc =>
    intro c hc fid hfid
    rw [lookup_initClient_clients_ne t ci n (by omega)] at hc
    exact hflow c hc fid hfid

/-- Deleting an old client commutes past a whole batch of additions. -/
theorem delClient_addClient_fold_comm : ∀ (cis : List ClientInfo) (t : State) (n : ℕ),
    n < t.nextClientId →
    (∀ c, lookup t.clients n = some c → ∀ fid ∈ c.flowIds, fid < t.nextFlowId) →
    delClient (cis.foldl addClient t) n = cis.foldl addClient (delClient t n) := by
  intro cis
  induction cis with
  | nil => intro t n _ _; rfl
  | cons ci rest ih =>
      intro t n hn hflow
      rw [List.foldl_cons, List.foldl_cons, ih (addClient t ci) n ?hlt ?hfl,
        delClient_addClient_comm t ci n hn hflow]
      case hlt =>
        rw [(addClient_meta t ci).1]
        omega
      case hfl =>
        intro c hc fid hfid
        rw [lookup_addClient_clients_ne t ci n (by omega)] at hc
        have := hflow c hc fid hfid
        rw [(addClient_meta t ci).2.1]
        omega

/-- Erasing the pushed-to client removes all trace of the pushes. -/
theorem eraseKey_pushIds (n : ℕ) : ∀ (k : ℕ) (cl : List (ℕ × Client)) (nf : ℕ),
    eraseKey (pushIds n cl nf k) n = eraseKey cl n := by
  intro k
  induction k with
  | zero => intro cl nf; rw [pushIds_zero]
  | succ k ih => intro cl nf; rw [pushIds_succ, ih, eraseKey_updateVal_self]

end NCModel

namespace NCModel

/-- The freshly added client's record: its flows are the new id block. -/
theorem addClient_lookup_self (s : State) (ci : ClientInfo)
    (hWc : ∀ kv ∈ s.clients, kv.1 < s.nextClientId) :
    lookup (addClient s ci).clients s.nextClientId
      = some ⟨s.nextClientId, ci.name.getD "",
              (List.range (ci.flows.getD []).length).map (fun i => s.nextFlowId + i),
              ci.SLO.getD 0, ci.SLOpercentile.getD (999/10), 0⟩ := by
  have hlc0 : lookup s.clients s.nextClientId = none :=
    lookup_eq_none_of_bound s.clients s.nextClientId hWc
  have hlcinit : lookup (initClient s ci).clients s.nextClientId
      = some ⟨s.nextClientId, ci.name.getD "", [], ci.SLO.getD 0,
              ci.SLOpercentile.getD (999/10), 0⟩ := by
    rw [initClient_eq]
    show lookup (s.clients ++ [(s.nextClientId,
        ⟨s.nextClientId, ci.name.getD "", [], ci.SLO.getD 0,
         ci.SLOpercentile.getD (999/10), 0⟩)]) s.nextClientId = _
    rw [lookup_append, hlc0, lookup_cons_self _ _ _ rfl]
    rfl
  rw [(addClient_meta s ci).2.2.2, lookup_pushIds, hlcinit]
  simp

/-- Deleting the client just added undoes the addition entirely except
for the monotone id counters. -/
theorem delClient_addClient_self (s : State) (ci : ClientInfo) (hWF : WF s) :
    delClient (addClient s ci) s.nextClientId
      = ⟨s.flows, s.clients, s.queues,
         s.nextFlowId + (ci.flows.getD []).length, s.nextClientId + 1,
         s.nextQueueId⟩ := by
  obtain ⟨hWf, hWc, hWq⟩ := hWF
  rw [delClient_some _ _ _ (addClient_lookup_self s ci hWc)]
  dsimp only
  have hX : ((List.range (ci.flows.getD []).length).map
        (fun i => s.nextFlowId + i)).foldl delFlow (addClient s ci)
      = ⟨s.flows,
         pushIds s.nextClientId
           (s.clients ++ [(s.nextClientId,
             ⟨s.nextClientId, ci.name.getD "", [], ci.SLO.getD 0,
              ci.SLOpercentile.getD (999/10), 0⟩)])
           s.nextFlowId (ci.flows.getD []).length,
         s.queues, s.nextFlowId + (ci.flows.getD []).length,
         s.nextClientId + 1, s.nextQueueId⟩ := by
    rw [addClient_eq, initClient_eq]
    have hrt := delFlow_fold_roundtrip s.nextClientId (ci.flows.getD [])
        ⟨s.flows,
         s.clients ++ [(s.nextClientId,
           ⟨s.nextClientId, ci.name.getD "", [], ci.SLO.getD 0,
            ci.SLOpercentile.getD (999/10), 0⟩)],
         s.queues, s.nextFlowId, s.nextClientId + 1, s.nextQueueId⟩
        (by intro kv hkv; exact hWf kv hkv)
        (by intro kv hkv e he; exact hWq kv hkv e he)
    dsimp only at hrt
    exact hrt
  rw [hX]
  dsimp only
  rw [State.mk.injEq]
  refine ⟨rfl, ?_, rfl, rfl, rfl, rfl⟩
  rw [eraseKey_pushIds, eraseKey_append,
    eraseKey_eq_self s.clients _ (fun kv hkv => Nat.ne_of_lt (hWc kv hkv)),
    eraseKey_cons_self _ _ _ rfl]
  simp [eraseKey]

/-- Counters of an addition batch depend only on the input counters. -/
theorem addClient_fold_counters : ∀ (cis : List ClientInfo) (a b : State),
    a.nextFlowId = b.nextFlowId → a.nextClientId = b.nextClientId →
    (cis.foldl addClient a).nextFlowId = (cis.foldl addClient b).nextFlowId ∧
    (cis.foldl addClient a).nextClientId = (cis.foldl addClient b).nextClientId := by
  intro cis
  induction cis with
  | nil => intro a b h1 h2; exact ⟨h1, h2⟩
  | cons ci rest ih =>
      intro a b h1 h2
      rw [List.foldl_cons, List.foldl_cons]
      apply ih
      · rw [(addClient_meta a ci).2.1, (addClient_meta b ci).2.1, h1]
      · rw [(addClient_meta a ci).1, (addClient_meta b ci).1, h2]

/-- Full rollback: deleting the batch's fresh client ids in ascending
order from the post-addition registry restores the original flows,
clients, and queues exactly; only the id counters keep their advanced
values. -/
theorem rollback_eq : ∀ (cis : List ClientInfo) (s : State), WF s →
    ((List.range cis.length).map (fun i => s.nextClientId + i)).foldl delClient
        (cis.foldl addClient s)
      = ⟨s.flows, s.clients, s.queues,
         (cis.foldl addClient s).nextFlowId, (cis.foldl addClient s).nextClientId,
         s.nextQueueId⟩ := by
  intro cis
  induction cis with
  | nil =>
      intro s _
      cases s
      rfl
  | cons ci rest ih =>
      intro s hWF
      rw [List.length_cons, range_map_add_succ, List.foldl_cons, List.foldl_cons]
      have hcomm : delClient (rest.foldl addClient (addClient s ci)) s.nextClientId
          = rest.foldl addClient (delClient (addClient s ci) s.nextClientId) := by
        apply delClient_addClient_fold_comm
        · rw [(addClient_meta s ci).1]
          omega
        · intro c hc fid hfid
          rw [addClient_lookup_self s ci hWF.2.1] at hc
          have hc2 := Option.some.inj hc
          rw [← hc2] at hfid
          simp only [List.mem_map, List.mem_range] at hfid
          obtain ⟨i, hi, hfe⟩ := hfid
          rw [(addClient_meta s ci).2.1]
          omega
      rw [hcomm, delClient_addClient_self s ci hWF]
      have hih := ih ⟨s.flows, s.clients, s.queues,
          s.nextFlowId + (ci.flows.getD []).length, s.nextClientId + 1, s.nextQueueId⟩
        ⟨by intro kv hkv; have := hWF.1 kv hkv; dsimp only; omega,
         by intro kv hkv; have := hWF.2.1 kv hkv; dsimp only; omega,
         by intro kv hkv e he; have := hWF.2.2 kv hkv e he; dsimp only; omega⟩
      dsimp only at hih
      rw [hih, State.mk.injEq]
      refine ⟨rfl, rfl, rfl, ?_, ?_, rfl⟩
      · refine (addClient_fold_counters rest _ _ ?_ ?_).1
        · rw [(addClient_meta s ci).2.1]
        · rw [(addClient_meta s ci).1]
      · refine (addClient_fold_counters rest _ _ ?_ ?_).2
        · rw [(addClient_meta s ci).2.1]
        · rw [(addClient_meta s ci).1]

end NCModel

namespace NCModel

/-- Componentwise introduction for `stateShape` equality. -/
theorem stateShape_eq_of (s s' : State)
    (h1 : s.flows.map (fun kv => (kv.1, flowShape kv.2))
        = s'.flows.map (fun kv => (kv.1, flowShape kv.2)))
    (h2 : s.clients.map (fun kv => (kv.1, clientShape kv.2))
        = s'.clients.map (fun kv => (kv.1, clientShape kv.2)))
    (h3 : s.queues = s'.queues) : stateShape s = stateShape s' := by
  unfold stateShape
  rw [h1, h2, h3]

/-- Flow-map component of a `stateShape` equality. -/
theorem stateShape_flows (a b : State) (h : stateShape a = stateShape b) :
    a.flows.map (fun kv => (kv.1, flowShape kv.2))
      = b.flows.map (fun kv => (kv.1, flowShape kv.2)) :=
  congrArg (fun t => t.1) h

/-- Client-map component of a `stateShape` equality. -/
theorem stateShape_clients (a b : State) (h : stateShape a = stateShape b) :
    a.clients.map (fun kv => (kv.1, clientShape kv.2))
      = b.clients.map (fun kv => (kv.1, clientShape kv.2)) :=
  congrArg (fun t => t.2.1) h

/-- Queue component of a `stateShape` equality. -/
theorem stateShape_queues (a b : State) (h : stateShape a = stateShape b) :
    a.queues = b.queues :=
  congrArg (fun t => t.2.2) h

/-- Value maps that fix the shape leave the shaped view unchanged. -/
theorem map_shape_updateVal {α β : Type} (l : List (ℕ × α)) (k : ℕ) (f : α → α)
    (sh : α → β) (h : ∀ a, sh (f a) = sh a) :
    (updateVal l k f).map (fun kv => (kv.1, sh kv.2))
      = l.map (fun kv => (kv.1, sh kv.2)) := by
  simp only [updateVal, List.map_map]
  apply List.map_congr_left
  intro kv _
  by_cases hk : kv.1 = k
  · simp [Function.comp, hk, h]
  · simp [Function.comp, hk]

/-- Shaping commutes with key erasure. -/
theorem map_shape_eraseKey {α β : Type} (l : List (ℕ × α)) (k : ℕ) (sh : α → β) :
    (eraseKey l k).map (fun kv => (kv.1, sh kv.2))
      = eraseKey (l.map (fun kv => (kv.1, sh kv.2))) k := by
  induction l with
  | nil => rfl
  | cons kv t ih =>
      by_cases hk : kv.1 = k
      · rw [List.map_cons, eraseKey_cons_self kv t k hk,
          eraseKey_cons_self (kv.1, sh kv.2) (t.map (fun kv => (kv.1, sh kv.2))) k hk, ih]
      · rw [List.map_cons, eraseKey_cons_ne kv t k hk,
          eraseKey_cons_ne (kv.1, sh kv.2) (t.map (fun kv => (kv.1, sh kv.2))) k hk,
          List.map_cons, ih]

/-- A fold of shape-preserving steps preserves the shape. -/
theorem stateShape_foldl {β : Type} (g : State → β → State)
    (hg : ∀ st b, stateShape (g st b) = stateShape st) :
    ∀ (l : List β) (st : State), stateShape (l.foldl g st) = stateShape st := by
  intro l
  induction l with
  | nil => intro st; rfl
  | cons b rest ih =>
      intro st
      rw [List.foldl_cons, ih, hg]

/-- Priority writes do not change the structural content. -/
theorem stateShape_setFlowPriority (s : State) (fid p : ℕ) :
    stateShape (setFlowPriority s fid p) = stateShape s := by
  apply stateShape_eq_of
  · show (updateVal s.flows fid (fun f => { f with priority := p })).map
        (fun kv => (kv.1, flowShape kv.2))
      = s.flows.map (fun kv => (kv.1, flowShape kv.2))
    exact map_shape_updateVal _ _ _ _ (fun a => rfl)
  · rfl
  · rfl

/-- Latency writes do not change the structural content. -/
theorem stateShape_setFlowLatency (s : State) (fid : ℕ) (v : ℚ) :
    stateShape (setFlowLatency s fid v) = stateShape s := by
  apply stateShape_eq_of
  · show (updateVal s.flows fid (fun f => { f with latency := v })).map
        (fun kv => (kv.1, flowShape kv.2))
      = s.flows.map (fun kv => (kv.1, flowShape kv.2))
    exact map_shape_updateVal _ _ _ _ (fun a => rfl)
  · rfl
  · rfl

/-- A latency sweep over one client keeps the structural content. -/
theorem stateShape_calcClientLatency (oracle : State → ℕ → ℚ) (s : State) (cid : ℕ) :
    stateShape (calcClientLatency oracle s cid) = stateShape s := by
  unfold calcClientLatency
  cases h : lookup s.clients cid with
  | none => rfl
  | some c =>
      refine (stateShape_foldl _ ?_ c.flowIds _).trans ?_
      · intro st fid
        apply stateShape_eq_of
        · show (updateVal st.flows fid (fun f => { f with latency := oracle st fid })).map
              (fun kv => (kv.1, flowShape kv.2))
            = st.flows.map (fun kv => (kv.1, flowShape kv.2))
          exact map_shape_updateVal _ _ _ _ (fun a => rfl)
        · show (updateVal st.clients cid
              (fun c0 => { c0 with latency := c0.latency + oracle st fid })).map
              (fun kv => (kv.1, clientShape kv.2))
            = st.clients.map (fun kv => (kv.1, clientShape kv.2))
          exact map_shape_updateVal _ _ _ _ (fun a => rfl)
        · rfl
      · apply stateShape_eq_of
        · rfl
        · show (updateVal s.clients cid (fun c0 => { c0 with latency := 0 })).map
              (fun kv => (kv.1, clientShape kv.2))
            = s.clients.map (fun kv => (kv.1, clientShape kv.2))
          exact map_shape_updateVal _ _ _ _ (fun a => rfl)
        · rfl

/-- The priority walk keeps the structural content. -/
theorem stateShape_configLoop : ∀ (cs : List Client) (s : State) (p : ℕ) (q : ℚ),
    stateShape (configLoop s cs p q) = stateShape s := by
  intro cs
  induction cs with
  | nil => intro s p q; rfl
  | cons c rest ih =>
      intro s p q
      simp only [configLoop]
      rw [ih]
      exact stateShape_foldl _ (fun st fid => stateShape_setFlowPriority st fid _)
        c.flowIds s

/-- `configurePrioritiesBySLO` keeps the structural content. -/
theorem stateShape_configurePriorities (s : State) :
    stateShape (configurePrioritiesBySLO s) = stateShape s :=
  stateShape_configLoop _ s 0 0

/-- The latency sweep keeps the structural content. -/
theorem stateShape_latencySweep (oracle : State → ℕ → ℚ) :
    ∀ (ids : List ℕ) (s : State) (aff : List (ℕ × ℕ)),
      stateShape (latencySweep oracle s ids aff).1 = stateShape s := by
  intro ids
  induction ids with
  | nil => intro s aff; rfl
  | cons cid rest ih =>
      intro s aff
      simp only [latencySweep]
      cases hl : lookup (calcClientLatency oracle s cid).clients cid with
      | none =>
          simp only [hl]
          rw [ih, stateShape_calcClientLatency]
      | some c =>
          simp only [hl]
          by_cases hslo : c.latency > c.SLO
          · rw [if_pos hslo]
            exact stateShape_calcClientLatency oracle s cid
          · rw [if_neg hslo]
            rw [ih, stateShape_calcClientLatency]

/-- The incumbent recheck keeps the structural content. -/
theorem stateShape_recheckLoop (oracle : State → ℕ → ℚ) (newIds : List ℕ) :
    ∀ (ids : List ℕ) (s : State),
      stateShape (recheckLoop oracle newIds s ids).1 = stateShape s := by
  intro ids
  induction ids with
  | nil => intro s; rfl
  | cons cid rest ih =>
      intro s
      simp only [recheckLoop]
      by_cases hmem : cid ∈ newIds
      · rw [if_pos hmem, ih]
      · rw [if_neg hmem]
        cases hl : lookup (calcClientLatency oracle s cid).clients cid with
        | none =>
            simp only [hl]
            rw [ih, stateShape_calcClientLatency]
        | some c =>
            simp only [hl]
            by_cases hslo : c.latency > c.SLO
            · rw [if_pos hslo]
              exact stateShape_calcClientLatency oracle s cid
            · rw [if_neg hslo]
              rw [ih, stateShape_calcClientLatency]

end NCModel

namespace NCModel

/-- Flow deletion is a congruence for the structural content. -/
theorem delFlow_shape_congr (a b : State) (h : stateShape a = stateShape b) (fid : ℕ) :
    stateShape (delFlow a fid) = stateShape (delFlow b fid) := by
  have hf := stateShape_flows a b h
  have hq := stateShape_queues a b h
  have hlf : (lookup a.flows fid).map flowShape = (lookup b.flows fid).map flowShape := by
    rw [← lookup_map_shape, ← lookup_map_shape, hf]
  cases hla : lookup a.flows fid with
  | none =>
      cases hlb : lookup b.flows fid with
      | none =>
          rw [delFlow_none a fid hla, delFlow_none b fid hlb]
          exact h
      | some fb =>
          rw [hla, hlb] at hlf
          simp at hlf
  | some fa =>
      cases hlb : lookup b.flows fid with
      | none =>
          rw [hla, hlb] at hlf
          simp at hlf
      | some fb =>
          rw [hla, hlb] at hlf
          have hsh : flowShape fa = flowShape fb := by simpa using hlf
          have hqids : fa.queueIds = fb.queueIds :=
            congrArg (fun t => t.2.2.2.1) hsh
          rw [delFlow_some a fid fa hla, delFlow_some b fid fb hlb]
          apply stateShape_eq_of
          · show (eraseKey a.flows fid).map (fun kv => (kv.1, flowShape kv.2))
              = (eraseKey b.flows fid).map (fun kv => (kv.1, flowShape kv.2))
            rw [map_shape_eraseKey, map_shape_eraseKey, hf]
          · exact stateShape_clients a b h
          · show fa.queueIds.foldl (fun qs qid => updateVal qs qid (eraseFlow fid)) a.queues
              = fb.queueIds.foldl (fun qs qid => updateVal qs qid (eraseFlow fid)) b.queues
            rw [hqids, hq]

/-- A block of flow deletions is a congruence for the content. -/
theorem delFlow_fold_shape_congr (fids : List ℕ) : ∀ (a b : State),
    stateShape a = stateShape b →
    stateShape (fids.foldl delFlow a) = stateShape (fids.foldl delFlow b) := by
  induction fids with
  | nil => intro a b h; exact h
  | cons fid rest ih =>
      intro a b h
      rw [List.foldl_cons, List.foldl_cons]
      exact ih _ _ (delFlow_shape_congr a b h fid)

/-- Client deletion is a congruence for the structural content. -/
theorem delClient_shape_congr (a b : State) (h : stateShape a = stateShape b) (cid : ℕ) :
    stateShape (delClient a cid) = stateShape (delClient b cid) := by
  have hlc : (lookup a.clients cid).map clientShape
      = (lookup b.clients cid).map clientShape := by
    rw [← lookup_map_shape, ← lookup_map_shape, stateShape_clients a b h]
  cases hla : lookup a.clients cid with
  | none =>
      cases hlb : lookup b.clients cid with
      | none =>
          rw [delClient_none a cid hla, delClient_none b cid hlb]
          exact h
      | some cb =>
          rw [hla, hlb] at hlc
          simp at hlc
  | some ca =>
      cases hlb : lookup b.clients cid with
      | none =>
          rw [hla, hlb] at hlc
          simp at hlc
      | some cb =>
          rw [hla, hlb] at hlc
          have hsh : clientShape ca = clientShape cb := by simpa using hlc
          have hfids : ca.flowIds = cb.flowIds := congrArg (fun t => t.2.2.1) hsh
          rw [delClient_some a cid ca hla, delClient_some b cid cb hlb, hfids]
          have hY := delFlow_fold_shape_congr cb.flowIds a b h
          apply stateShape_eq_of
          · show (cb.flowIds.foldl delFlow a).flows.map (fun kv => (kv.1, flowShape kv.2))
              = (cb.flowIds.foldl delFlow b).flows.map (fun kv => (kv.1, flowShape kv.2))
            exact stateShape_flows _ _ hY
          · show (eraseKey (cb.flowIds.foldl delFlow a).clients cid).map
                (fun kv => (kv.1, clientShape kv.2))
              = (eraseKey (cb.flowIds.foldl delFlow b).clients cid).map
                (fun kv => (kv.1, clientShape kv.2))
            rw [map_shape_eraseKey, map_shape_eraseKey, stateShape_clients _ _ hY]
          · show (cb.flowIds.foldl delFlow a).queues = (cb.flowIds.foldl delFlow b).queues
            exact stateShape_queues _ _ hY

/-- A block of client deletions is a congruence for the content. -/
theorem delClient_fold_shape_congr (cids : List ℕ) : ∀ (a b : State),
    stateShape a = stateShape b →
    stateShape (cids.foldl delClient a) = stateShape (cids.foldl delClient b) := by
  induction cids with
  | nil => intro a b h; exact h
  | cons cid rest ih =>
      intro a b h
      rw [List.foldl_cons, List.foldl_cons]
      exact ih _ _ (delClient_shape_congr a b h cid)

/-- Shape form of the rollback equation. -/
theorem rollback_shape (cis : List ClientInfo) (s : State) (hWF : WF s) :
    stateShape
        (((List.range cis.length).map (fun i => s.nextClientId + i)).foldl delClient
          (cis.foldl addClient s))
      = stateShape s := by
  rw [rollback_eq cis s hWF]
  rfl

end NCModel

namespace NCModel

/-- **C2 (amended).** A rejected AddClients call — `admitted = false`,
which covers every non-SUCCESS return of the handler — restores the
structural content of the registry: exactly the same queue map, and the
same client and flow maps with all immutable attributes (ids, names,
queue paths, SLOs, percentiles, epsilons, flow lists) intact.  Only the
recomputed flow `priority`/`latency` and client `latency` fields (and
the monotone id counters) may differ, because `configurePrioritiesBySLO`
and the latency sweep run before the admission decision and are not
rolled back. -/
theorem addClients_rejected_restores_structure (oracle : State → ℕ → ℚ) (s : State)
    (cis : List ClientInfo) (hWF : WF s)
    (hrej : (snc_meister_add_clients_svc oracle s cis).2.admitted = false) :
    stateShape (snc_meister_add_clients_svc oracle s cis).1 = stateShape s := by
  simp only [snc_meister_add_clients_svc] at hrej ⊢
  by_cases h0 : checkClientInfos s [] [] cis ≠ SNCStatus.success
  · rw [if_pos h0]
  · rw [if_neg h0] at hrej ⊢
    by_cases h1 : addDependenciesLoop (cis.foldl addClient s) cis ≠ SNCStatus.success
    · rw [if_pos h1]
      exact rollback_shape cis s hWF
    · rw [if_neg h1] at hrej ⊢
      have hr1 : stateShape (latencySweep oracle
            (configurePrioritiesBySLO (cis.foldl addClient s))
            ((List.range cis.length).map (fun i => s.nextClientId + i)) []).1
          = stateShape (cis.foldl addClient s) :=
        (stateShape_latencySweep oracle _ _ _).trans (stateShape_configurePriorities _)
      by_cases h2 : (latencySweep oracle (configurePrioritiesBySLO (cis.foldl addClient s))
          ((List.range cis.length).map (fun i => s.nextClientId + i)) []).2.1 = true
      · rw [if_pos h2] at hrej ⊢
        have hr21 : stateShape (recheckLoop oracle
              ((List.range cis.length).map (fun i => s.nextClientId + i))
              (latencySweep oracle (configurePrioritiesBySLO (cis.foldl addClient s))
                ((List.range cis.length).map (fun i => s.nextClientId + i)) []).1
              (affectedClientIds
                (latencySweep oracle (configurePrioritiesBySLO (cis.foldl addClient s))
                  ((List.range cis.length).map (fun i => s.nextClientId + i)) []).1
                (latencySweep oracle (configurePrioritiesBySLO (cis.foldl addClient s))
                  ((List.range cis.length).map (fun i => s.nextClientId + i)) []).2.2)).1
            = stateShape (cis.foldl addClient s) :=
          (stateShape_recheckLoop oracle _ _ _).trans hr1
        by_cases h3 : (recheckLoop oracle
              ((List.range cis.length).map (fun i => s.nextClientId + i))
              (latencySweep oracle (configurePrioritiesBySLO (cis.foldl addClient s))
                ((List.range cis.length).map (fun i => s.nextClientId + i)) []).1
              (affectedClientIds
                (latencySweep oracle (configurePrioritiesBySLO (cis.foldl addClient s))
                  ((List.range cis.length).map (fun i => s.nextClientId + i)) []).1
                (latencySweep oracle (configurePrioritiesBySLO (cis.foldl addClient s))
                  ((List.range cis.length).map (fun i => s.nextClientId + i)) []).2.2)).2
            = true
        · rw [if_pos h3] at hrej
          exact absurd hrej (by simp)
        · rw [if_neg h3]
          exact (delClient_fold_shape_congr _ _ _ hr21).trans (rollback_shape cis s hWF)
      · rw [if_neg h2]
        exact (delClient_fold_shape_congr _ _ _ hr1).trans (rollback_shape cis s hWF)

end NCModel

namespace NCModel

/-- Witness: on the one-queue registry, a batch whose latency oracle
returns 2 (above the SLO of 1) is rejected, and the registry's
structural content is restored. -/
theorem addClients_rejected_restores_structure_witness :
    WF state0 ∧
    (snc_meister_add_clients_svc (fun _ _ => 2) state0 [clientInfoA]).2.admitted = false ∧
    stateShape (snc_meister_add_clients_svc (fun _ _ => 2) state0 [clientInfoA]).1
      = stateShape state0 := by
  have hWF : WF state0 := by decide
  have hrej : (snc_meister_add_clients_svc (fun _ _ => 2) state0 [clientInfoA]).2.admitted
      = false := by
    simp [state0, exampleQueueInfo, clientInfoA, addQueue, emptyState,
      addClient, initClient, initFlow, addFlowToQueues, updateVal, lookup,
      getQueueIdByName, getClientIdByName, getFlowIdByName, configurePrioritiesBySLO,
      configLoop, sortBySLO, insertBySLO, setFlowPriority, snc_meister_add_clients_svc,
      checkClientInfos, checkClientInfo, checkFlowInfos, checkFlowInfo,
      addDependenciesLoop, addDependenciesCheck, latencySweep, calcClientLatency,
      setFlowLatency, markAffectedFlows, markFuel, affectedClientIds, insertSortedNat,
      recheckLoop, delClient, delFlow, eraseKey, List.find?, List.foldl, List.eraseP]
    norm_num [state0, exampleQueueInfo, clientInfoA, addQueue, emptyState,
      addClient, initClient, initFlow, addFlowToQueues, updateVal, lookup,
      getQueueIdByName, getClientIdByName, getFlowIdByName, configurePrioritiesBySLO,
      configLoop, sortBySLO, insertBySLO, setFlowPriority, snc_meister_add_clients_svc,
      checkClientInfos, checkClientInfo, checkFlowInfos, checkFlowInfo,
      addDependenciesLoop, addDependenciesCheck, latencySweep, calcClientLatency,
      setFlowLatency, markAffectedFlows, markFuel, affectedClientIds, insertSortedNat,
      recheckLoop, delClient, delFlow, eraseKey, List.find?, List.foldl, List.eraseP]
  exact ⟨hWF, hrej, addClients_rejected_restores_structure (fun _ _ => 2) state0
    [clientInfoA] hWF hrej⟩

end NCModel
